import Mathlib

/-!
Verification development for the sss_cli repository: a CLI wrapper around a
Shamir secret sharing engine over GF(2^8).  The byte-level field arithmetic,
the split/combine engine and the CLI glue from main.go are embedded as
executable Lean definitions, and the behavioural claims about them are proved
below.
-/

namespace SSSCli

/-- Carry-less (GF(2)-polynomial) multiplication of naturals, with explicit
fuel: `cmulF k a b` is the polynomial product of `a` and `b` whenever
`a < 2 ^ k`. -/
def cmulF : Nat → Nat → Nat → Nat
  | 0, _, _ => 0
  | k + 1, a, b => if a = 0 then 0 else (if a % 2 = 1 then b else 0) ^^^ 2 * cmulF k (a / 2) b

/-- Carry-less multiplication; fuel `a` always suffices because `a < 2 ^ a`. -/
def cmul (a b : Nat) : Nat := cmulF a a b

theorem cmulF_zero_left (k b : Nat) : cmulF k 0 b = 0 := by
  cases k <;> simp [cmulF]

theorem cmulF_congr : ∀ (k k' a : Nat), a < 2 ^ k → a < 2 ^ k' → ∀ b, cmulF k a b = cmulF k' a b := by
  intro k
  induction k with
  | zero =>
    intro k' a ha _ b
    have h0 : a = 0 := by simpa using ha
    subst h0
    simp [cmulF_zero_left]
  | succ k ih =>
    intro k' a ha ha' b
    rcases Nat.eq_zero_or_pos a with rfl | hpos
    · simp [cmulF_zero_left]
    · have hne : a ≠ 0 := by omega
      match k' with
      | 0 =>
        exfalso
        have : a = 0 := by simpa using ha'
        omega
      | k' + 1 =>
        have h1 : a / 2 < 2 ^ k := by
          apply Nat.div_lt_of_lt_mul
          rw [Nat.pow_succ] at ha
          omega
        have h2 : a / 2 < 2 ^ k' := by
          apply Nat.div_lt_of_lt_mul
          rw [Nat.pow_succ] at ha'
          omega
        simp only [cmulF, hne, if_false]
        rw [ih k' (a / 2) h1 h2 b]

theorem cmul_eq_cmulF {k a : Nat} (h : a < 2 ^ k) (b : Nat) : cmul a b = cmulF k a b :=
  cmulF_congr a k a (Nat.lt_two_pow a) h b

theorem cmul_zero_left (b : Nat) : cmul 0 b = 0 := rfl

theorem cmul_rec {a : Nat} (h : a ≠ 0) (b : Nat) :
    cmul a b = (if a % 2 = 1 then b else 0) ^^^ 2 * cmul (a / 2) b := by
  obtain ⟨a', rfl⟩ : ∃ a'', a = a'' + 1 := ⟨a - 1, by omega⟩
  have hhalf : (a' + 1) / 2 < 2 ^ a' := by
    have h1 : (a' + 1) / 2 ≤ a' := by omega
    exact Nat.lt_of_le_of_lt h1 (Nat.lt_two_pow a')
  show cmulF (a' + 1) (a' + 1) b = _
  simp only [cmulF, h, if_false]
  rw [← cmulF_congr ((a' + 1) / 2) a' ((a' + 1) / 2) (Nat.lt_two_pow _) hhalf b]
  rfl

theorem cmul_zero_right (a : Nat) : cmul a 0 = 0 := by
  induction a using Nat.strong_induction_on with
  | _ a ih =>
    rcases Nat.eq_zero_or_pos a with rfl | hpos
    · rfl
    · have hne : a ≠ 0 := by omega
      rw [cmul_rec hne, ih (a / 2) (Nat.div_lt_self hpos (by norm_num))]
      simp

theorem cmul_one_left (b : Nat) : cmul 1 b = b := by
  rw [cmul_rec one_ne_zero]
  norm_num [cmul_zero_left]

theorem xor_mix (a b c d : Nat) : (a ^^^ b) ^^^ (c ^^^ d) = (a ^^^ c) ^^^ (b ^^^ d) := by
  rw [Nat.xor_assoc, Nat.xor_assoc]
  congr 1
  rw [← Nat.xor_assoc, ← Nat.xor_assoc, Nat.xor_comm b c]

theorem two_mul_xor (x y : Nat) : 2 * (x ^^^ y) = 2 * x ^^^ 2 * y := by
  apply Nat.eq_of_testBit_eq
  intro i
  cases i with
  | zero =>
    simp [Nat.testBit_zero, Nat.mul_mod_right]
  | succ i =>
    rw [Nat.testBit_add_one, Nat.testBit_add_one, Nat.xor_div_two,
      Nat.mul_div_cancel_left _ (by norm_num : 0 < 2),
      Nat.mul_div_cancel_left _ (by norm_num : 0 < 2),
      Nat.mul_div_cancel_left _ (by norm_num : 0 < 2)]

theorem xor_parity (a b : Nat) : (a ^^^ b) % 2 = (a % 2 + b % 2) % 2 := by
  have h := @Nat.xor_mod_two_eq_one a b
  have hab := Nat.mod_two_eq_zero_or_one (a ^^^ b)
  rcases Nat.mod_two_eq_zero_or_one a with ha | ha <;>
    rcases Nat.mod_two_eq_zero_or_one b with hb | hb <;>
      rw [ha, hb] <;> rw [ha, hb] at h <;> omega

theorem if_parity_xor (a b c : Nat) :
    (if (a ^^^ b) % 2 = 1 then c else 0) =
      (if a % 2 = 1 then c else 0) ^^^ (if b % 2 = 1 then c else 0) := by
  have h := xor_parity a b
  rcases Nat.mod_two_eq_zero_or_one a with ha | ha <;>
    rcases Nat.mod_two_eq_zero_or_one b with hb | hb <;>
      rw [ha, hb] at h <;> simp [ha, hb, h]

theorem cmul_xor_right (a b c : Nat) : cmul a (b ^^^ c) = cmul a b ^^^ cmul a c := by
  induction a using Nat.strong_induction_on with
  | _ a ih =>
    rcases Nat.eq_zero_or_pos a with rfl | hpos
    · simp [cmul_zero_left]
    · have hne : a ≠ 0 := by omega
      have hlt : a / 2 < a := Nat.div_lt_self hpos (by norm_num)
      rw [cmul_rec hne, cmul_rec hne b, cmul_rec hne c, ih _ hlt, two_mul_xor]
      by_cases hp : a % 2 = 1
      · simp only [hp, if_true]
        exact xor_mix b c _ _
      · simp [hp]

theorem cmul_xor_left (a b c : Nat) : cmul (a ^^^ b) c = cmul a c ^^^ cmul b c := by
  induction a using Nat.strong_induction_on generalizing b with
  | _ a ih =>
    rcases Nat.eq_zero_or_pos a with rfl | hpos
    · simp [cmul_zero_left]
    · rcases Nat.eq_zero_or_pos b with rfl | hposb
      · simp [cmul_zero_left]
      · have hne : a ≠ 0 := by omega
        have hneb : b ≠ 0 := by omega
        by_cases hab : a ^^^ b = 0
        · have : a = b := Nat.xor_eq_zero.mp hab
          subst this
          simp [hab, cmul_zero_left]
        · have hlt : a / 2 < a := Nat.div_lt_self hpos (by norm_num)
          rw [cmul_rec hab, cmul_rec hne, cmul_rec hneb, Nat.xor_div_two,
            ih _ hlt, two_mul_xor, if_parity_xor]
          exact xor_mix _ _ _ _

theorem cmul_two_right (a b : Nat) : cmul a (2 * b) = 2 * cmul a b := by
  induction a using Nat.strong_induction_on with
  | _ a ih =>
    rcases Nat.eq_zero_or_pos a with rfl | hpos
    · simp [cmul_zero_left]
    · have hne : a ≠ 0 := by omega
      have hlt : a / 2 < a := Nat.div_lt_self hpos (by norm_num)
      rw [cmul_rec hne, cmul_rec hne b, ih _ hlt, two_mul_xor]
      congr 1
      by_cases hp : a % 2 = 1 <;> simp [hp]

theorem two_mul_xor_one (x : Nat) : 2 * x ^^^ 1 = 2 * x + 1 := by
  apply Nat.eq_of_testBit_eq
  intro i
  cases i with
  | zero =>
    have h1 : (2 * x ^^^ 1) % 2 = 1 := by
      rw [xor_parity]
      simp [Nat.mul_mod_right]
    have h2 : (2 * x + 1) % 2 = 1 := by omega
    simp [Nat.testBit_zero, h1, h2]
  | succ i =>
    rw [Nat.testBit_add_one, Nat.testBit_add_one, Nat.xor_div_two]
    have h1 : 2 * x / 2 = x := Nat.mul_div_cancel_left _ (by norm_num)
    have h2 : (2 * x + 1) / 2 = x := by omega
    simp [h1, h2]

theorem two_mul_add_bit (x r : Nat) (h : r < 2) : 2 * x ^^^ r = 2 * x + r := by
  interval_cases r
  · simp
  · exact two_mul_xor_one x

theorem cmul_one_right (a : Nat) : cmul a 1 = a := by
  induction a using Nat.strong_induction_on with
  | _ a ih =>
    rcases Nat.eq_zero_or_pos a with rfl | hpos
    · rfl
    · have hne : a ≠ 0 := by omega
      have hlt : a / 2 < a := Nat.div_lt_self hpos (by norm_num)
      rw [cmul_rec hne, ih _ hlt]
      have hbit : (if a % 2 = 1 then 1 else 0) = a % 2 := by
        rcases Nat.mod_two_eq_zero_or_one a with hp | hp <;> simp [hp]
      rw [hbit, Nat.xor_comm, two_mul_add_bit _ _ (Nat.mod_lt _ (by norm_num))]
      omega

theorem cmul_comm (a b : Nat) : cmul a b = cmul b a := by
  induction a using Nat.strong_induction_on generalizing b with
  | _ a ih =>
    rcases Nat.eq_zero_or_pos a with rfl | hpos
    · rw [cmul_zero_left, cmul_zero_right]
    · have hne : a ≠ 0 := by omega
      have hlt : a / 2 < a := Nat.div_lt_self hpos (by norm_num)
      rw [cmul_rec hne, ih _ hlt b]
      have hdecomp : a = 2 * (a / 2) ^^^ a % 2 := by
        rw [two_mul_add_bit _ _ (Nat.mod_lt _ (by norm_num))]
        omega
      conv_rhs => rw [hdecomp]
      rw [cmul_xor_right, cmul_two_right]
      have hbit : cmul b (a % 2) = if a % 2 = 1 then b else 0 := by
        rcases Nat.mod_two_eq_zero_or_one a with hp | hp <;>
          simp [hp, cmul_zero_right, cmul_one_right]
      rw [hbit, Nat.xor_comm]

theorem cmul_two_left (a b : Nat) : cmul (2 * a) b = 2 * cmul a b := by
  rw [cmul_comm, cmul_two_right, cmul_comm]

theorem cmul_assoc (a b c : Nat) : cmul (cmul a b) c = cmul a (cmul b c) := by
  induction a using Nat.strong_induction_on with
  | _ a ih =>
    rcases Nat.eq_zero_or_pos a with rfl | hpos
    · simp [cmul_zero_left]
    · have hne : a ≠ 0 := by omega
      have hlt : a / 2 < a := Nat.div_lt_self hpos (by norm_num)
      rw [cmul_rec hne b, cmul_xor_left, cmul_two_left, ih _ hlt, cmul_rec hne (cmul b c)]
      congr 1
      by_cases hp : a % 2 = 1 <;> simp [hp, cmul_zero_left]

theorem cmul_lt (a b m n : Nat) (ha : a < 2 ^ (m + 1)) (hb : b < 2 ^ (n + 1)) :
    cmul a b < 2 ^ (m + n + 1) := by
  induction a using Nat.strong_induction_on generalizing m with
  | _ a ih =>
    rcases Nat.eq_zero_or_pos a with rfl | hpos
    · rw [cmul_zero_left]
      exact Nat.pos_pow_of_pos _ (by norm_num)
    · have hne : a ≠ 0 := by omega
      have hlt : a / 2 < a := Nat.div_lt_self hpos (by norm_num)
      rcases Nat.eq_zero_or_pos m with rfl | hmpos
      · have ha1 : a = 1 := by
          have : (2 : Nat) ^ (0 + 1) = 2 := by norm_num
          omega
        subst ha1
        rw [cmul_one_left]
        calc b < 2 ^ (n + 1) := hb
          _ ≤ 2 ^ (0 + n + 1) := by norm_num
      · obtain ⟨m', rfl⟩ : ∃ m'', m = m'' + 1 := ⟨m - 1, by omega⟩
        rw [cmul_rec hne]
        apply Nat.xor_lt_two_pow
        · have hble : (if a % 2 = 1 then b else 0) < 2 ^ (n + 1) := by
            by_cases hp : a % 2 = 1 <;> simp [hp, hb, Nat.pos_pow_of_pos]
          calc (if a % 2 = 1 then b else 0) < 2 ^ (n + 1) := hble
            _ ≤ 2 ^ (m' + 1 + n + 1) := Nat.pow_le_pow_right (by norm_num) (by omega)
        · have hhalf : a / 2 < 2 ^ (m' + 1) := by
            apply Nat.div_lt_of_lt_mul
            rw [Nat.pow_succ] at ha
            omega
          have := ih (a / 2) hlt m' hhalf
          calc 2 * cmul (a / 2) b < 2 * 2 ^ (m' + n + 1) := by omega
            _ = 2 ^ (m' + 1 + n + 1) := by ring

theorem testBit_true_of_between {m x : Nat} (h1 : 2 ^ m ≤ x) (h2 : x < 2 ^ (m + 1)) :
    x.testBit m = true := by
  rw [Nat.testBit_to_div_mod]
  have hdiv : x / 2 ^ m = 1 := by
    apply Nat.div_eq_of_lt_le
    · simpa using h1
    · rw [Nat.pow_succ] at h2
      omega
  simp [hdiv]

theorem lt_pow_of_testBit_false {m x : Nat} (h1 : x < 2 ^ (m + 1))
    (h2 : x.testBit m = false) : x < 2 ^ m := by
  by_contra hge
  rw [testBit_true_of_between (by omega) h1] at h2
  exact absurd h2 (by decide)

theorem testBit_log2 {n : Nat} (h : n ≠ 0) : n.testBit n.log2 = true :=
  testBit_true_of_between (Nat.log2_self_le h) Nat.lt_log2_self

theorem log2_rec {a : Nat} (h : 2 ≤ a) : a.log2 = (a / 2).log2 + 1 := by
  have hne : a ≠ 0 := by omega
  have hhne : a / 2 ≠ 0 := by omega
  have hlow : 2 ^ ((a / 2).log2 + 1) ≤ a := by
    have := Nat.log2_self_le hhne
    rw [Nat.pow_succ]
    omega
  have hhigh : a < 2 ^ ((a / 2).log2 + 2) := by
    have := @Nat.lt_log2_self (a / 2)
    have h2 : a < 2 * (a / 2) + 2 := by omega
    calc a < 2 * (a / 2) + 2 := h2
      _ ≤ 2 * 2 ^ ((a / 2).log2 + 1) := by omega
      _ = 2 ^ ((a / 2).log2 + 2) := by ring
  have hl := (Nat.le_log2 hne).mpr hlow
  have hu := (Nat.log2_lt hne).mpr hhigh
  omega

theorem cmul_testBit_top (a b : Nat) (ha : a ≠ 0) (hb : b ≠ 0) :
    (cmul a b).testBit (a.log2 + b.log2) = true := by
  induction a using Nat.strong_induction_on with
  | _ a ih =>
    rcases Nat.lt_or_ge a 2 with hsmall | hbig
    · have h1 : a = 1 := by omega
      subst h1
      have : Nat.log2 1 = 0 := by
        have hl := (Nat.log2_lt (by norm_num : (1 : Nat) ≠ 0)).mpr (by norm_num : (1 : Nat) < 2 ^ 1)
        omega
      rw [this, cmul_one_left, Nat.zero_add]
      exact testBit_log2 hb
    · have hne : a ≠ 0 := by omega
      have hhne : a / 2 ≠ 0 := by omega
      have hlt : a / 2 < a := Nat.div_lt_self (by omega) (by norm_num)
      rw [cmul_rec hne, log2_rec hbig, Nat.testBit_xor]
      have hbitb : (if a % 2 = 1 then b else 0).testBit ((a / 2).log2 + 1 + b.log2) = false := by
        have hble : b < 2 ^ ((a / 2).log2 + 1 + b.log2) := by
          calc b < 2 ^ (b.log2 + 1) := Nat.lt_log2_self
            _ ≤ 2 ^ ((a / 2).log2 + 1 + b.log2) := Nat.pow_le_pow_right (by norm_num) (by omega)
        by_cases hp : a % 2 = 1 <;> simp [hp, Nat.testBit_lt_two_pow hble]
      have hbit2 : (2 * cmul (a / 2) b).testBit ((a / 2).log2 + 1 + b.log2) = true := by
        have harr : (a / 2).log2 + 1 + b.log2 = ((a / 2).log2 + b.log2) + 1 := by omega
        rw [harr, Nat.testBit_add_one, Nat.mul_div_cancel_left _ (by norm_num : 0 < 2)]
        exact ih _ hlt hhne
      rw [hbitb, hbit2]
      rfl

theorem cmul_ge (a b : Nat) (ha : a ≠ 0) (hb : b ≠ 0) :
    2 ^ (a.log2 + b.log2) ≤ cmul a b :=
  Nat.testBit_implies_ge (cmul_testBit_top a b ha hb)

/-- One reduction step of the modular reduction by the AES field polynomial
`x^8 + x^4 + x^3 + x + 1` (0x11B = 283): clears bit `8 + k` if set. -/
def redStep (k a : Nat) : Nat := if a.testBit (8 + k) then a ^^^ (283 <<< k) else a

/-- Reduce a carry-less product (of width `< 2 ^ 15`) modulo 283, clearing
bits 14 down to 8. -/
def gfRed (a : Nat) : Nat :=
  redStep 0 (redStep 1 (redStep 2 (redStep 3 (redStep 4 (redStep 5 (redStep 6 a))))))

/-- Congruence modulo the field polynomial 283 on carry-less arithmetic. -/
def gfEquiv (a b : Nat) : Prop := ∃ q, a ^^^ b = cmul q 283

theorem gfEquiv_refl (a : Nat) : gfEquiv a a := ⟨0, by simp [cmul_zero_left]⟩

theorem gfEquiv_symm {a b : Nat} (h : gfEquiv a b) : gfEquiv b a := by
  obtain ⟨q, hq⟩ := h
  exact ⟨q, by rw [Nat.xor_comm]; exact hq⟩

theorem gfEquiv_trans {a b c : Nat} (h1 : gfEquiv a b) (h2 : gfEquiv b c) : gfEquiv a c := by
  obtain ⟨q, hq⟩ := h1
  obtain ⟨r, hr⟩ := h2
  refine ⟨q ^^^ r, ?_⟩
  rw [cmul_xor_left, ← hq, ← hr, ← Nat.xor_assoc, Nat.xor_assoc a b b, Nat.xor_self, Nat.xor_zero]

theorem gfEquiv_xor {a b a' b' : Nat} (h1 : gfEquiv a a') (h2 : gfEquiv b b') :
    gfEquiv (a ^^^ b) (a' ^^^ b') := by
  obtain ⟨q, hq⟩ := h1
  obtain ⟨r, hr⟩ := h2
  refine ⟨q ^^^ r, ?_⟩
  rw [cmul_xor_left, ← hq, ← hr]
  exact xor_mix a b a' b'

theorem gfEquiv_cmul {a a' : Nat} (c : Nat) (h : gfEquiv a a') :
    gfEquiv (cmul a c) (cmul a' c) := by
  obtain ⟨q, hq⟩ := h
  refine ⟨cmul q c, ?_⟩
  rw [← cmul_xor_left, hq, cmul_assoc, cmul_comm 283 c, ← cmul_assoc]

theorem cmul_pow_two (k b : Nat) : cmul (2 ^ k) b = 2 ^ k * b := by
  induction k with
  | zero => simpa using cmul_one_left b
  | succ k ih =>
    have h : (2 : Nat) ^ (k + 1) = 2 * 2 ^ k := by ring
    rw [h, cmul_two_left, ih]
    ring

theorem redStep_equiv (k a : Nat) : gfEquiv (redStep k a) a := by
  unfold redStep
  by_cases h : a.testBit (8 + k)
  · rw [if_pos h]
    refine ⟨2 ^ k, ?_⟩
    rw [Nat.xor_comm a (283 <<< k), Nat.xor_assoc, Nat.xor_self, Nat.xor_zero,
      Nat.shiftLeft_eq, cmul_pow_two]
    ring
  · rw [if_neg h]
    exact gfEquiv_refl a

theorem redStep_lt {k a : Nat} (h : a < 2 ^ (9 + k)) : redStep k a < 2 ^ (8 + k) := by
  unfold redStep
  by_cases hb : a.testBit (8 + k)
  · rw [if_pos hb]
    apply lt_pow_of_testBit_false
    · have h1 : 283 <<< k < 2 ^ (9 + k) := by
        rw [Nat.shiftLeft_eq]
        have : (283 : Nat) * 2 ^ k < 512 * 2 ^ k := by
          have := Nat.pos_pow_of_pos k (show 0 < 2 by norm_num)
          exact Nat.mul_lt_mul_of_lt_of_le (by norm_num) (Nat.le_refl _) this
        calc (283 : Nat) * 2 ^ k < 512 * 2 ^ k := this
          _ = 2 ^ (9 + k) := by rw [Nat.pow_add]
      have harr : 8 + k + 1 = 9 + k := by omega
      rw [harr]
      exact Nat.xor_lt_two_pow h h1
    · rw [Nat.testBit_xor, hb]
      have hsb : (283 <<< k).testBit (8 + k) = true := by
        rw [Nat.testBit_shiftLeft]
        have h1 : k ≤ 8 + k := by omega
        have h2 : 8 + k - k = 8 := by omega
        simp [h1, h2]
        rfl
      rw [hsb]
      rfl
  · rw [if_neg hb]
    have hb' : a.testBit (8 + k) = false := by
      cases hgb : a.testBit (8 + k)
      · rfl
      · exact absurd hgb hb
    apply lt_pow_of_testBit_false _ hb'
    have harr : 8 + k + 1 = 9 + k := by omega
    rw [harr]
    exact h

theorem gfRed_equiv (a : Nat) : gfEquiv (gfRed a) a := by
  unfold gfRed
  exact gfEquiv_trans (redStep_equiv _ _) (gfEquiv_trans (redStep_equiv _ _)
    (gfEquiv_trans (redStep_equiv _ _) (gfEquiv_trans (redStep_equiv _ _)
      (gfEquiv_trans (redStep_equiv _ _) (gfEquiv_trans (redStep_equiv _ _)
        (redStep_equiv _ _))))))

theorem gfRed_lt {a : Nat} (h : a < 2 ^ 15) : gfRed a < 256 := by
  unfold gfRed
  have h6 : redStep 6 a < 2 ^ 14 := redStep_lt (by simpa using h)
  have h5 : redStep 5 (redStep 6 a) < 2 ^ 13 := redStep_lt h6
  have h4 : redStep 4 _ < 2 ^ 12 := redStep_lt h5
  have h3 : redStep 3 _ < 2 ^ 11 := redStep_lt h4
  have h2 : redStep 2 _ < 2 ^ 10 := redStep_lt h3
  have h1 : redStep 1 _ < 2 ^ 9 := redStep_lt h2
  exact redStep_lt h1

theorem log2_283 : Nat.log2 283 = 8 := by
  have h1 := (Nat.le_log2 (by norm_num : (283 : Nat) ≠ 0)).mpr (by norm_num : 2 ^ 8 ≤ 283)
  have h2 := (Nat.log2_lt (by norm_num : (283 : Nat) ≠ 0)).mpr (by norm_num : 283 < 2 ^ 9)
  omega

theorem gfEquiv_canon {a b : Nat} (ha : a < 256) (hb : b < 256) (h : gfEquiv a b) : a = b := by
  obtain ⟨q, hq⟩ := h
  rcases Nat.eq_zero_or_pos q with rfl | hqpos
  · rw [cmul_zero_left] at hq
    exact Nat.xor_eq_zero.mp hq
  · exfalso
    have hge : 2 ^ (q.log2 + 8) ≤ cmul q 283 := by
      have := cmul_ge q 283 (by omega) (by norm_num)
      rwa [log2_283] at this
    have h8 : (256 : Nat) ≤ 2 ^ (q.log2 + 8) := by
      have : (256 : Nat) = 2 ^ 8 := by norm_num
      rw [this]
      exact Nat.pow_le_pow_right (by norm_num) (by omega)
    have hxor : a ^^^ b < 256 := Nat.xor_lt_two_pow (n := 8) ha hb
    omega

theorem gfRed_id {a : Nat} (h : a < 256) : gfRed a = a := by
  have hstep : ∀ k, redStep k a = a := by
    intro k
    unfold redStep
    have hbit : a.testBit (8 + k) = false := by
      apply Nat.testBit_lt_two_pow
      calc a < 256 := h
        _ = 2 ^ 8 := by norm_num
        _ ≤ 2 ^ (8 + k) := Nat.pow_le_pow_right (by norm_num) (by omega)
    simp [hbit]
  unfold gfRed
  simp [hstep]

/-- Multiplication in GF(2^8): carry-less product reduced modulo 283. -/
def gfMul (a b : Nat) : Nat := gfRed (cmul a b)

theorem cmul_lt_byte {a b : Nat} (ha : a < 256) (hb : b < 256) : cmul a b < 2 ^ 15 := by
  have := cmul_lt a b 7 7 (by norm_num at ha ⊢; omega) (by norm_num at hb ⊢; omega)
  simpa using this

theorem gfMul_lt {a b : Nat} (ha : a < 256) (hb : b < 256) : gfMul a b < 256 :=
  gfRed_lt (cmul_lt_byte ha hb)

theorem gfMul_equiv (a b : Nat) : gfEquiv (gfMul a b) (cmul a b) := gfRed_equiv _

/-- Precomputed multiplicative-inverse table for GF(2^8) (index 0 maps to 0). -/
def gfInvTable : List Nat :=
  [0, 1, 141, 246, 203, 82, 123, 209, 232, 79, 41, 192, 176, 225, 229, 199, 116, 180,
   170, 75, 153, 43, 96, 95, 88, 63, 253, 204, 255, 64, 238, 178, 58, 110, 90, 241,
   85, 77, 168, 201, 193, 10, 152, 21, 48, 68, 162, 194, 44, 69, 146, 108, 243, 57,
   102, 66, 242, 53, 32, 111, 119, 187, 89, 25, 29, 254, 55, 103, 45, 49, 245, 105,
   167, 100, 171, 19, 84, 37, 233, 9, 237, 92, 5, 202, 76, 36, 135, 191, 24, 62, 34,
   240, 81, 236, 97, 23, 22, 94, 175, 211, 73, 166, 54, 67, 244, 71, 145, 223, 51,
   147, 33, 59, 121, 183, 151, 133, 16, 181, 186, 60, 182, 112, 208, 6, 161, 250,
   129, 130, 131, 126, 127, 128, 150, 115, 190, 86, 155, 158, 149, 217, 247, 2, 185,
   164, 222, 106, 50, 109, 216, 138, 132, 114, 42, 20, 159, 136, 249, 220, 137, 154,
   251, 124, 46, 195, 143, 184, 101, 72, 38, 200, 18, 74, 206, 231, 210, 98, 12, 224,
   31, 239, 17, 117, 120, 113, 165, 142, 118, 61, 189, 188, 134, 87, 11, 40, 47, 163,
   218, 212, 228, 15, 169, 39, 83, 4, 27, 252, 172, 230, 122, 7, 174, 99, 197, 219,
   226, 234, 148, 139, 196, 213, 157, 248, 144, 107, 177, 13, 214, 235, 198, 14, 207,
   173, 8, 78, 215, 227, 93, 80, 30, 179, 91, 35, 56, 52, 104, 70, 3, 140, 221, 156,
   125, 160, 205, 26, 65, 28]

/-- Multiplicative inverse in GF(2^8); maps 0 to 0. -/
def gfInvN (a : Nat) : Nat := gfInvTable.getD a 0

set_option maxRecDepth 4000 in
theorem gf_mul_inv : ∀ n, n < 256 → n ≠ 0 → gfMul n (gfInvN n) = 1 := by decide

set_option maxRecDepth 4000 in
theorem gfInvN_lt : ∀ n, n < 256 → gfInvN n < 256 := by decide

theorem xor_lt_256 {a b : Nat} (ha : a < 256) (hb : b < 256) : a ^^^ b < 256 :=
  Nat.xor_lt_two_pow (n := 8) ha hb

/-- The field GF(2^8), carried by bytes: naturals below 256. -/
def GF : Type := {n : Nat // n < 256}

instance : DecidableEq GF := fun x y => decidable_of_iff (x.val = y.val) Subtype.ext_iff.symm

def GF.add (x y : GF) : GF := ⟨x.val ^^^ y.val, xor_lt_256 x.2 y.2⟩

def GF.mul (x y : GF) : GF := ⟨gfMul x.val y.val, gfMul_lt x.2 y.2⟩

def GF.zero : GF := ⟨0, by norm_num⟩

def GF.one : GF := ⟨1, by norm_num⟩

def GF.inv (x : GF) : GF := ⟨gfInvN x.val, gfInvN_lt x.val x.2⟩

instance : Zero GF := ⟨GF.zero⟩

instance : One GF := ⟨GF.one⟩

instance : Add GF := ⟨GF.add⟩

instance : Mul GF := ⟨GF.mul⟩

instance : Neg GF := ⟨fun x => x⟩

instance : Inv GF := ⟨GF.inv⟩

theorem GF.val_add (x y : GF) : (x + y).val = x.val ^^^ y.val := rfl

theorem GF.val_mul (x y : GF) : (x * y).val = gfMul x.val y.val := rfl

theorem GF.val_inv (x : GF) : (x⁻¹).val = gfInvN x.val := rfl

theorem GF.eq_of_val {x y : GF} (h : x.val = y.val) : x = y := Subtype.ext h

theorem gfMul_comm (a b : Nat) : gfMul a b = gfMul b a := by
  rw [gfMul, gfMul, cmul_comm]

theorem gfMul_assoc {a b c : Nat} (ha : a < 256) (hb : b < 256) (hc : c < 256) :
    gfMul (gfMul a b) c = gfMul a (gfMul b c) := by
  apply gfEquiv_canon (gfMul_lt (gfMul_lt ha hb) hc) (gfMul_lt ha (gfMul_lt hb hc))
  have h1 : gfEquiv (gfMul (gfMul a b) c) (cmul a (cmul b c)) := by
    have e := gfEquiv_trans (gfMul_equiv (gfMul a b) c) (gfEquiv_cmul c (gfRed_equiv (cmul a b)))
    rwa [cmul_assoc] at e
  have h2 : gfEquiv (gfMul a (gfMul b c)) (cmul a (cmul b c)) := by
    refine gfEquiv_trans (gfMul_equiv a (gfMul b c)) ?_
    rw [cmul_comm a (gfMul b c), cmul_comm a (cmul b c)]
    exact gfEquiv_cmul a (gfRed_equiv _)
  exact gfEquiv_trans h1 (gfEquiv_symm h2)

theorem gfMul_xor {a b c : Nat} (ha : a < 256) (hb : b < 256) (hc : c < 256) :
    gfMul a (b ^^^ c) = gfMul a b ^^^ gfMul a c := by
  apply gfEquiv_canon (gfMul_lt ha (xor_lt_256 hb hc))
    (xor_lt_256 (gfMul_lt ha hb) (gfMul_lt ha hc))
  have h1 : gfEquiv (gfMul a (b ^^^ c)) (cmul a b ^^^ cmul a c) := by
    have e := gfMul_equiv a (b ^^^ c)
    rwa [cmul_xor_right] at e
  have h2 : gfEquiv (gfMul a b ^^^ gfMul a c) (cmul a b ^^^ cmul a c) :=
    gfEquiv_xor (gfMul_equiv a b) (gfMul_equiv a c)
  exact gfEquiv_trans h1 (gfEquiv_symm h2)

theorem gfMul_one {a : Nat} (ha : a < 256) : gfMul a 1 = a := by
  rw [gfMul, cmul_one_right, gfRed_id ha]

theorem gfMul_zero (a : Nat) : gfMul a 0 = 0 := by
  rw [gfMul, cmul_zero_right]
  exact gfRed_id (by norm_num)

instance : CommRing GF where
  add := GF.add
  add_assoc := fun _ _ _ => GF.eq_of_val (Nat.xor_assoc _ _ _)
  zero := GF.zero
  zero_add := fun _ => GF.eq_of_val (Nat.zero_xor _)
  add_zero := fun _ => GF.eq_of_val (Nat.xor_zero _)
  add_comm := fun _ _ => GF.eq_of_val (Nat.xor_comm _ _)
  mul := GF.mul
  left_distrib := fun a b c => GF.eq_of_val (gfMul_xor a.2 b.2 c.2)
  right_distrib := fun a b c => GF.eq_of_val (by
    show gfMul (a.val ^^^ b.val) c.val = gfMul a.val c.val ^^^ gfMul b.val c.val
    rw [gfMul_comm _ c.val, gfMul_xor c.2 a.2 b.2, gfMul_comm c.val, gfMul_comm c.val])
  zero_mul := fun a => GF.eq_of_val (by
    show gfMul 0 a.val = 0
    rw [gfMul_comm]
    exact gfMul_zero a.val)
  mul_zero := fun a => GF.eq_of_val (gfMul_zero a.val)
  mul_assoc := fun a b c => GF.eq_of_val (gfMul_assoc a.2 b.2 c.2)
  one := GF.one
  one_mul := fun a => GF.eq_of_val (by
    show gfMul 1 a.val = a.val
    rw [gfMul_comm]
    exact gfMul_one a.2)
  mul_one := fun a => GF.eq_of_val (gfMul_one a.2)
  mul_comm := fun a b => GF.eq_of_val (gfMul_comm a.val b.val)
  neg := fun x => x
  neg_add_cancel := fun a => GF.eq_of_val (Nat.xor_self a.val)
  nsmul := nsmulRec
  zsmul := zsmulRec

instance : Field GF :=
  { (inferInstance : CommRing GF) with
    inv := GF.inv
    exists_pair_ne := ⟨0, 1, fun h => by
      have hv : (0 : Nat) = 1 := congrArg Subtype.val h
      exact absurd hv (by norm_num)⟩
    mul_inv_cancel := fun a ha => by
      apply GF.eq_of_val
      show gfMul a.val (gfInvN a.val) = 1
      apply gf_mul_inv a.val a.2
      intro h
      apply ha
      apply GF.eq_of_val
      show a.val = (0 : GF).val
      simpa using h
    inv_zero := by
      apply GF.eq_of_val
      show gfInvN (0 : GF).val = (0 : GF).val
      rfl
    nnqsmul := _
    qsmul := _ }

theorem GF.neg_eq (x : GF) : -x = x := rfl

theorem GF.sub_eq (x y : GF) : x - y = x + y := by
  rw [sub_eq_add_neg, GF.neg_eq]

theorem GF.zero_sub_eq (x : GF) : (0 : GF) - x = x := by
  rw [GF.sub_eq, zero_add]

/-- Modelled from the spec: the engine `shamir/shamir.go` is not under src/,
so per-byte polynomial evaluation (spec §4.3, Horner's method in GF(2^8)) is
defined from the spec's words.  `polyEval (c0 :: cs) x` is
`c0 + c1*x + c2*x^2 + ...` evaluated at `x`. -/
def polyEval (coeffs : List GF) (x : GF) : GF :=
  coeffs.foldr (fun c acc => c + x * acc) 0

/-- Modelled from the spec (§4.3): the share assigned x-coordinate `x`.
`rows` pairs each secret byte (the constant term) with the random
non-constant coefficients of its polynomial; data bytes come first and the
x-coordinate tag is the final byte. -/
def shareFor (rows : List (GF × List GF)) (x : GF) : List GF :=
  rows.map (fun r => polyEval (r.1 :: r.2) x) ++ [x]

/-- Modelled from the spec (§4.3): the shares produced by one split, with the
randomness (x-coordinates `xs`, coefficient rows `coeffs`) passed in
explicitly. -/
def splitWith (secret : List GF) (coeffs : List (List GF)) (xs : List GF) : List (List GF) :=
  xs.map (shareFor (secret.zip coeffs))

/-- Error taxonomy of the engine (spec §7). -/
inductive ShamirError where
  | invalidParameters
  | inconsistentShares
  | duplicateShare
deriving DecidableEq

/-- Modelled from the spec (§4.3): `Split` validates `2 ≤ t ≤ n ≤ 255` and a
nonempty secret before consuming any randomness; the randomness is an
explicit argument here. -/
def splitModel (secret : List GF) (n t : Nat) (coeffs : List (List GF)) (xs : List GF) :
    Except ShamirError (List (List GF)) :=
  if 2 ≤ t ∧ t ≤ n ∧ n ≤ 255 ∧ 1 ≤ secret.length then .ok (splitWith secret coeffs xs)
  else .error .invalidParameters

/-- Well-shaped randomness for a split of an `L`-byte secret into `n` shares
with threshold `t`: `n` distinct nonzero x-coordinates and one row of
`t - 1` coefficients per secret byte (spec §4.2, §4.3). -/
@[reducible] def ValidRandomness (n t L : Nat) (coeffs : List (List GF)) (xs : List GF) : Prop :=
  xs.length = n ∧ xs.Nodup ∧ (∀ x ∈ xs, x ≠ 0) ∧
    coeffs.length = L ∧ ∀ c ∈ coeffs, c.length = t - 1

/-- Modelled from the spec (§4.4): Lagrange interpolation at `x = 0`,
`Σ_j y_j · Π_{m ≠ j} x_m · (x_m ⊕ x_j)⁻¹`. -/
def combineByte {k : Nat} (x y : Fin k → GF) : GF :=
  ∑ j, y j * ∏ m ∈ Finset.univ.erase j, x m * (x m + x j)⁻¹

/-- The x-coordinate tag of a share: its final byte (spec §3). -/
def tagOf (s : List GF) : GF := s.getD (s.length - 1) 0

/-- Modelled from the spec (§4.4): the recovered secret for structurally
valid shares; one interpolation per data-byte position. -/
def combineCore (shares : List (List GF)) : List GF :=
  (List.range ((shares.headD []).length - 1)).map (fun i =>
    combineByte (fun j : Fin shares.length => tagOf (shares.get j))
      (fun j : Fin shares.length => (shares.get j).getD i 0))

/-- Modelled from the spec (§4.4): `Combine` and its structural validation:
at least two shares (else InvalidParameters), all shares of equal length
`L + 1` with `L ≥ 1` (else InconsistentShares), all tags distinct (else
DuplicateShare). -/
def combineShares (shares : List (List GF)) : Except ShamirError (List GF) :=
  if shares.length < 2 then .error .invalidParameters
  else if (∀ s ∈ shares, s.length = (shares.headD []).length) ∧
      2 ≤ (shares.headD []).length then
    if (shares.map tagOf).Nodup then .ok (combineCore shares)
    else .error .duplicateShare
  else .error .inconsistentShares

/-- The polynomial with the given low-to-high coefficient list. -/
noncomputable def listToPoly : List GF → Polynomial GF
  | [] => 0
  | c :: cs => Polynomial.C c + Polynomial.X * listToPoly cs

theorem polyEval_eq (cs : List GF) (x : GF) : polyEval cs x = (listToPoly cs).eval x := by
  induction cs with
  | nil => simp [polyEval, listToPoly]
  | cons c cs ih =>
    have h1 : polyEval (c :: cs) x = c + x * polyEval cs x := rfl
    have h2 : listToPoly (c :: cs) = Polynomial.C c + Polynomial.X * listToPoly cs := rfl
    rw [h1, h2, Polynomial.eval_add, Polynomial.eval_C, Polynomial.eval_mul, Polynomial.eval_X, ih]

theorem listToPoly_coeff (cs : List GF) (i : Nat) : (listToPoly cs).coeff i = cs.getD i 0 := by
  induction cs generalizing i with
  | nil => simp [listToPoly]
  | cons c cs ih =>
    have h2 : listToPoly (c :: cs) = Polynomial.C c + Polynomial.X * listToPoly cs := rfl
    rw [h2]
    cases i with
    | zero =>
      rw [Polynomial.coeff_add, Polynomial.coeff_C_zero, mul_comm,
        Polynomial.coeff_mul_X_zero, add_zero]
      rfl
    | succ i =>
      rw [Polynomial.coeff_add, Polynomial.coeff_C, mul_comm, Polynomial.coeff_mul_X, ih]
      simp

theorem listToPoly_degree (cs : List GF) : (listToPoly cs).degree < (cs.length : WithBot Nat) := by
  rw [Polynomial.degree_lt_iff_coeff_zero]
  intro m hm
  rw [listToPoly_coeff]
  apply List.getD_eq_default
  exact_mod_cast hm

theorem listToPoly_eval_zero (cs : List GF) : (listToPoly cs).eval 0 = cs.getD 0 0 := by
  rw [← Polynomial.coeff_zero_eq_eval_zero, listToPoly_coeff]

theorem combineByte_interpolate {k : Nat} (x y : Fin k → GF) :
    combineByte x y = Polynomial.eval 0 (Lagrange.interpolate Finset.univ x y) := by
  rw [Lagrange.interpolate_apply, Polynomial.eval_finset_sum]
  unfold combineByte
  refine Finset.sum_congr rfl (fun j _ => ?_)
  rw [Polynomial.eval_mul, Polynomial.eval_C]
  congr 1
  rw [Lagrange.basis, Polynomial.eval_prod]
  refine Finset.prod_congr rfl (fun m _ => ?_)
  rw [Lagrange.basisDivisor, Polynomial.eval_mul, Polynomial.eval_C, Polynomial.eval_sub,
    Polynomial.eval_X, Polynomial.eval_C, GF.zero_sub_eq, GF.sub_eq, add_comm (x j) (x m)]
  exact mul_comm _ _

theorem combineByte_eval {k : Nat} (x y : Fin k → GF) (hx : Function.Injective x)
    {p : Polynomial GF} (hdeg : p.degree < (k : WithBot Nat))
    (hy : ∀ j, y j = p.eval (x j)) :
    combineByte x y = p.eval 0 := by
  rw [combineByte_interpolate]
  have hinj : Set.InjOn x ↑(Finset.univ : Finset (Fin k)) := fun a _ b _ h => hx h
  have hdeg' : p.degree < ((Finset.univ : Finset (Fin k)).card : WithBot Nat) := by
    rwa [Finset.card_univ, Fintype.card_fin]
  have hrepr := Lagrange.eq_interpolate (f := p) hinj hdeg'
  have hyy : y = fun i => p.eval (x i) := funext hy
  rw [hyy, ← hrepr]

theorem shareFor_length (rows : List (GF × List GF)) (x : GF) :
    (shareFor rows x).length = rows.length + 1 := by
  simp [shareFor]

theorem shareFor_tag (rows : List (GF × List GF)) (x : GF) : tagOf (shareFor rows x) = x := by
  unfold tagOf
  rw [shareFor_length]
  have hidx : rows.length + 1 - 1 = rows.length := by omega
  rw [hidx]
  unfold shareFor
  rw [List.getD_eq_getElem _ _ (by simp)]
  rw [List.getElem_append_right (by simp)]
  simp

theorem shareFor_data (rows : List (GF × List GF)) (x : GF) {i : Nat} (h : i < rows.length) :
    (shareFor rows x).getD i 0 = polyEval ((rows.get ⟨i, h⟩).1 :: (rows.get ⟨i, h⟩).2) x := by
  unfold shareFor
  rw [List.getD_eq_getElem _ _ (by simp; omega)]
  rw [List.getElem_append_left (by simpa using h)]
  simp

/-- A selection of shares from `all`: any subset, in any order, without
repetition. -/
def SubChoice (sub all : List (List GF)) : Prop :=
  ∃ σ : Fin sub.length → Fin all.length,
    Function.Injective σ ∧ ∀ j, sub.get j = all.get (σ j)

theorem splitWith_length (secret : List GF) (coeffs : List (List GF)) (xs : List GF) :
    (splitWith secret coeffs xs).length = xs.length := by
  simp [splitWith]

theorem combineShares_splitWith
    (secret : List GF) (coeffs : List (List GF)) (xs : List GF) (t : Nat) (sub : List (List GF))
    (hsec : secret ≠ [])
    (hxnd : xs.Nodup)
    (hclen : coeffs.length = secret.length)
    (hcrow : ∀ c ∈ coeffs, c.length = t - 1)
    (ht : 2 ≤ t)
    (hsub : SubChoice sub (splitWith secret coeffs xs))
    (hk : t ≤ sub.length) :
    combineShares sub = .ok secret := by
  obtain ⟨σ, hσinj, hσget⟩ := hsub
  have hrowlen : (secret.zip coeffs).length = secret.length := by
    rw [List.length_zip, hclen, Nat.min_self]
  have hL : 1 ≤ secret.length := by
    cases secret
    · exact absurd rfl hsec
    · simp
  have hσlt : ∀ j : Fin sub.length, (σ j : Nat) < xs.length := fun j => by
    have h := (σ j).2
    have hsl := splitWith_length secret coeffs xs
    omega
  have hgets : ∀ j : Fin sub.length,
      sub.get j = shareFor (secret.zip coeffs) (xs.get ⟨σ j, hσlt j⟩) := by
    intro j
    rw [hσget j]
    unfold splitWith
    rw [List.get_map]
  have htag : ∀ j : Fin sub.length, tagOf (sub.get j) = xs.get ⟨σ j, hσlt j⟩ := by
    intro j
    rw [hgets j, shareFor_tag]
  have hxinj : Function.Injective (fun j : Fin sub.length => tagOf (sub.get j)) := by
    intro j1 j2 h
    simp only [htag] at h
    have hgi := List.nodup_iff_injective_get.mp hxnd h
    have hv : (σ j1 : Nat) = (σ j2 : Nat) := Fin.mk_eq_mk.mp hgi
    exact hσinj (Fin.ext hv)
  have hlen_sub : ∀ s ∈ sub, s.length = secret.length + 1 := by
    intro s hs
    obtain ⟨j, hj⟩ := List.mem_iff_get.mp hs
    rw [← hj, hgets j, shareFor_length, hrowlen]
  have hsub2 : 2 ≤ sub.length := le_trans ht hk
  have hheadmem : sub.headD [] ∈ sub := by
    cases sub with
    | nil => simp at hsub2
    | cons s rest => simp
  have hheadlen : (sub.headD []).length = secret.length + 1 := hlen_sub _ hheadmem
  have hcore : combineCore sub = secret := by
    unfold combineCore
    rw [hheadlen]
    have hL1 : secret.length + 1 - 1 = secret.length := by omega
    rw [hL1]
    apply List.ext_getElem
    · simp
    · intro i h1 h2
      have hi : i < secret.length := by simpa using h2
      have hic : i < coeffs.length := by omega
      have hir : i < (secret.zip coeffs).length := by omega
      simp only [List.getElem_map, List.getElem_range]
      have hclen_i : ((secret.get ⟨i, hi⟩) :: (coeffs.get ⟨i, hic⟩)).length = t := by
        have hci : coeffs.get ⟨i, hic⟩ ∈ coeffs := List.get_mem coeffs i hic
        rw [List.length_cons, hcrow _ hci]
        omega
      have hdeg : (listToPoly ((secret.get ⟨i, hi⟩) :: (coeffs.get ⟨i, hic⟩))).degree <
          (sub.length : WithBot Nat) := by
        have hd := listToPoly_degree ((secret.get ⟨i, hi⟩) :: (coeffs.get ⟨i, hic⟩))
        rw [hclen_i] at hd
        refine lt_of_lt_of_le hd ?_
        exact_mod_cast Nat.cast_le.mpr hk
      have hy : ∀ j : Fin sub.length, (sub.get j).getD i 0 =
          (listToPoly ((secret.get ⟨i, hi⟩) :: (coeffs.get ⟨i, hic⟩))).eval
            (tagOf (sub.get j)) := by
        intro j
        rw [hgets j, shareFor_tag, shareFor_data _ _ hir, ← polyEval_eq]
        have hz : (secret.zip coeffs).get ⟨i, hir⟩ =
            (secret.get ⟨i, hi⟩, coeffs.get ⟨i, hic⟩) := by
          rw [List.get_zip]
        rw [hz]
      rw [combineByte_eval _ _ hxinj hdeg hy, listToPoly_eval_zero]
      simp
  unfold combineShares
  rw [if_neg (by omega), if_pos, if_pos]
  · rw [hcore]
  · rw [List.nodup_iff_injective_get]
    intro j1 j2 h
    rw [List.get_map, List.get_map] at h
    have hj := hxinj h
    have hv : (j1 : Nat) = (j2 : Nat) := Fin.mk_eq_mk.mp hj
    exact Fin.ext hv
  · constructor
    · intro s hs
      rw [hlen_sub s hs, hheadlen]
    · rw [hheadlen]
      omega

/-- Byte literal in GF(2^8). -/
def gf (n : Nat) : GF := ⟨n % 256, Nat.mod_lt _ (by norm_num)⟩

instance {e a : Type} [DecidableEq e] [DecidableEq a] : DecidableEq (Except e a)
  | .ok x, .ok y => decidable_of_iff (x = y) (by simp)
  | .error x, .error y => decidable_of_iff (x = y) (by simp)
  | .ok _, .error _ => isFalse (by simp)
  | .error _, .ok _ => isFalse (by simp)


theorem listToPoly_coeff_succ (s : GF) (cs : List GF) (i : Nat) :
    (listToPoly (s :: cs)).coeff (i + 1) = cs.getD i 0 := by
  rw [listToPoly_coeff]
  simp

theorem listToPoly_degree_lt (s : GF) (cs : List GF) {t : Nat} (h : cs.length = t - 1)
    (ht : 1 ≤ t) : (listToPoly (s :: cs)).degree < (t : WithBot Nat) := by
  have hd := listToPoly_degree (s :: cs)
  rw [List.length_cons, h] at hd
  have harr : t - 1 + 1 = t := by omega
  rwa [harr] at hd

theorem list_eq_of_getD {l1 l2 : List GF} (hlen : l1.length = l2.length)
    (h : ∀ i, l1.getD i 0 = l2.getD i 0) : l1 = l2 := by
  apply List.ext_getElem hlen
  intro i h1 h2
  have hi := h i
  rwa [List.getD_eq_getElem _ _ h1, List.getD_eq_getElem _ _ h2] at hi

/-- Per byte position (spec §4.3 secrecy guarantee): for any `t - 1` distinct
nonzero x-coordinates and any observed evaluations there, EVERY candidate
secret byte is consistent with the observation, through exactly one
coefficient row. -/
theorem secrecy_byte (t : Nat) (ht : 1 ≤ t) (x : Fin (t - 1) → GF)
    (hxinj : Function.Injective x) (hx0 : ∀ j, x j ≠ 0)
    (y : Fin (t - 1) → GF) (s : GF) :
    ∃! cs : List GF, cs.length = t - 1 ∧ ∀ j, polyEval (s :: cs) (x j) = y j := by
  classical
  set v : Option (Fin (t - 1)) → GF := fun o => o.elim 0 x with hv
  set r : Option (Fin (t - 1)) → GF := fun o => o.elim s y with hr
  have hvinj : Function.Injective v := by
    intro a b hab
    match a, b with
    | none, none => rfl
    | none, some j => exact absurd hab.symm (hx0 j)
    | some j, none => exact absurd hab (hx0 j)
    | some j1, some j2 => exact congrArg some (hxinj hab)
  have hvs : Set.InjOn v ↑(Finset.univ : Finset (Option (Fin (t - 1)))) :=
    fun a _ b _ h => hvinj h
  have hcard : (Finset.univ : Finset (Option (Fin (t - 1)))).card = t := by
    rw [Finset.card_univ, Fintype.card_option, Fintype.card_fin]
    omega
  set q := Lagrange.interpolate Finset.univ v r with hq
  have hqdeg : q.degree < (t : WithBot Nat) := by
    have hd := Lagrange.degree_interpolate_lt r hvs
    rwa [hcard] at hd
  have hqeval : ∀ o, q.eval (v o) = r o := fun o =>
    Lagrange.eval_interpolate_at_node r hvs (Finset.mem_univ o)
  have hq0 : q.eval 0 = s := by
    have h := hqeval none
    simpa [hv, hr] using h
  have hqx : ∀ j, q.eval (x j) = y j := by
    intro j
    have h := hqeval (some j)
    simpa [hv, hr] using h
  -- any consistent coefficient row gives exactly the polynomial q
  have hpoly_eq : ∀ cs : List GF, cs.length = t - 1 →
      (∀ j, polyEval (s :: cs) (x j) = y j) → listToPoly (s :: cs) = q := by
    intro cs hlen heval
    apply Polynomial.eq_of_degrees_lt_of_eval_index_eq (v := v) Finset.univ hvs
    · rw [hcard]
      exact_mod_cast listToPoly_degree_lt s cs hlen ht
    · rw [hcard]
      exact_mod_cast hqdeg
    · intro o _
      match o with
      | none =>
        show (listToPoly (s :: cs)).eval (v none) = q.eval (v none)
        have hvn : v none = 0 := rfl
        rw [hvn, listToPoly_eval_zero, hq0]
        rfl
      | some j =>
        show (listToPoly (s :: cs)).eval (v (some j)) = q.eval (v (some j))
        have hvs' : v (some j) = x j := rfl
        rw [hvs', ← polyEval_eq, heval j, hqx j]
  refine ⟨(List.range (t - 1)).map (fun i => q.coeff (i + 1)), ⟨by simp, ?_⟩, ?_⟩
  · intro j
    have hlist : listToPoly (s :: (List.range (t - 1)).map (fun i => q.coeff (i + 1))) = q := by
      apply Polynomial.ext
      intro n
      cases n with
      | zero =>
        rw [listToPoly_coeff, Polynomial.coeff_zero_eq_eval_zero, hq0]
        rfl
      | succ n =>
        rw [listToPoly_coeff_succ]
        by_cases hn : n < t - 1
        · rw [List.getD_eq_getElem _ _ (by simpa using hn)]
          simp
        · rw [List.getD_eq_default _ _ (by simpa using hn)]
          symm
          apply Polynomial.coeff_eq_zero_of_degree_lt
          refine lt_of_lt_of_le hqdeg ?_
          have hle : t ≤ n + 1 := by omega
          exact_mod_cast Nat.cast_le.mpr hle
    rw [polyEval_eq, hlist, hqx j]
  · rintro cs' ⟨hlen', heval'⟩
    have hl1 := hpoly_eq cs' hlen' heval'
    apply list_eq_of_getD (by simp [hlen'])
    intro i
    have hc := congrArg (fun p => Polynomial.coeff p (i + 1)) hl1
    simp only at hc
    rw [listToPoly_coeff_succ] at hc
    rw [hc]
    by_cases hn : i < t - 1
    · rw [List.getD_eq_getElem _ _ (by simpa using hn)]
      simp
    · rw [List.getD_eq_default _ _ (by simpa using hn)]
      apply Polynomial.coeff_eq_zero_of_degree_lt
      refine lt_of_lt_of_le hqdeg ?_
      have hle : t ≤ i + 1 := by omega
      exact_mod_cast Nat.cast_le.mpr hle

theorem finRange_getElem {n i : Nat} (h : i < (List.finRange n).length) :
    (List.finRange n)[i] = ⟨i, by simpa using h⟩ := by
  have hg := List.get_finRange (n := n) (i := i) (by simpa using h)
  rw [List.get_eq_getElem] at hg
  exact hg

theorem lists_eq_of_getD {α : Type} (d : α) {l1 l2 : List α} (hlen : l1.length = l2.length)
    (h : ∀ i, l1.getD i d = l2.getD i d) : l1 = l2 := by
  apply List.ext_getElem hlen
  intro i h1 h2
  have hi := h i
  rwa [List.getD_eq_getElem _ _ h1, List.getD_eq_getElem _ _ h2] at hi

/-- Spec §4.3 secrecy guarantee, jointly over all byte positions: for any
`(t-1)`-subset (selection `σ`) of the x-coordinates of a split, EVERY
candidate secret is consistent with every observed data-byte matrix of those
shares, through exactly one coefficient matrix.  The count (one per secret)
does not depend on the secret, so the observed share bytes carry no
information about it. -/
theorem secrecy_split (secret : List GF) (t : Nat) (ht : 2 ≤ t)
    (xs : List GF) (hxnd : xs.Nodup) (hx0 : ∀ x ∈ xs, x ≠ 0)
    (σ : Fin (t - 1) → Fin xs.length) (hσ : Function.Injective σ)
    (obs : Fin (t - 1) → Fin secret.length → GF) :
    ∃! coeffs : List (List GF),
      coeffs.length = secret.length ∧ (∀ c ∈ coeffs, c.length = t - 1) ∧
      ∀ (j : Fin (t - 1)) (i : Fin secret.length),
        (((splitWith secret coeffs xs).getD (σ j).val []).getD i.val 0) = obs j i := by
  classical
  have htm : 1 ≤ t := by omega
  have hx'inj : Function.Injective (fun j => xs.get (σ j)) := by
    intro a b h
    exact hσ (List.nodup_iff_injective_get.mp hxnd h)
  have hx'0 : ∀ j, xs.get (σ j) ≠ 0 := fun j => hx0 _ (List.mem_iff_get.mpr ⟨σ j, rfl⟩)
  have hrow := fun (i : Fin secret.length) =>
    secrecy_byte t htm (fun j => xs.get (σ j)) hx'inj hx'0 (fun j => obs j i) (secret.get i)
  have haccess : ∀ (coeffs : List (List GF)) (hclen : coeffs.length = secret.length),
      ∀ (j : Fin (t - 1)) (i : Fin secret.length),
      (((splitWith secret coeffs xs).getD (σ j).val []).getD i.val 0) =
        polyEval (secret.get i :: coeffs.get ⟨i.val, by omega⟩) (xs.get (σ j)) := by
    intro coeffs hclen j i
    have hb : (σ j).val < (splitWith secret coeffs xs).length := by
      rw [splitWith_length]
      exact (σ j).2
    have hzl : i.val < (secret.zip coeffs).length := by
      rw [List.length_zip, hclen, Nat.min_self]
      exact i.2
    rw [List.getD_eq_getElem _ _ hb]
    have hg : (splitWith secret coeffs xs)[(σ j).val] =
        shareFor (secret.zip coeffs) (xs.get (σ j)) := by
      unfold splitWith
      rw [List.getElem_map, List.get_eq_getElem]
    rw [hg, shareFor_data _ _ hzl, List.get_zip]
  refine ⟨(List.finRange secret.length).map (fun i => (hrow i).choose), ⟨by simp, ?_, ?_⟩, ?_⟩
  · intro c hc
    obtain ⟨i, hi⟩ := List.mem_iff_get.mp hc
    rw [List.get_map] at hi
    rw [← hi]
    exact ((hrow _).choose_spec.1).1
  · intro j i
    have hclen : ((List.finRange secret.length).map (fun i => (hrow i).choose)).length =
        secret.length := by simp
    rw [haccess _ hclen j i]
    have hg : ((List.finRange secret.length).map (fun i => (hrow i).choose)).get
        ⟨i.val, by omega⟩ = (hrow i).choose := by
      rw [List.get_map, List.get_finRange]
    rw [hg]
    exact ((hrow i).choose_spec.1).2 j
  · rintro c' ⟨hlen', hrows', heval'⟩
    have hrowc : ∀ i : Fin secret.length,
        c'.get ⟨i.val, by omega⟩ = (hrow i).choose := by
      intro i
      apply (hrow i).choose_spec.2
      constructor
      · exact hrows' _ (List.mem_iff_get.mpr ⟨_, rfl⟩)
      · intro j
        have h := heval' j i
        rwa [haccess c' hlen' j i] at h
    apply lists_eq_of_getD ([] : List GF) (by simp [hlen'])
    intro i
    by_cases hi : i < secret.length
    · have hco := hrowc ⟨i, hi⟩
      rw [List.get_eq_getElem] at hco
      rw [List.getD_eq_getElem _ _ (by omega),
        List.getD_eq_getElem _ _ (by simpa using hi)]
      rw [List.getElem_map, finRange_getElem]
      exact hco
    · rw [List.getD_eq_default _ _ (by omega), List.getD_eq_default _ _ (by simpa using hi)]

/-- Embedding of main.go `zero` (lines 79-83): the buffer contents after the
in-place wipe. -/
def zero (b : List GF) : List GF := b.map (fun _ => 0)

/-- Embedding of main.go `zero2D` (lines 85-89): wipe every row. -/
def zero2D (bb : List (List GF)) : List (List GF) := bb.map zero

/-- Embedding of main.go `bytesEqual` (lines 355-365). -/
def bytesEqual (a b : List GF) : Bool :=
  if a.length ≠ b.length then false
  else (List.range a.length).all (fun i => a.getD i 0 = b.getD i 0)

theorem bytesEqual_iff (a b : List GF) : bytesEqual a b = true ↔ a = b := by
  unfold bytesEqual
  constructor
  · intro h
    by_cases hlen : a.length = b.length
    · rw [if_neg (by omega)] at h
      rw [List.all_eq_true] at h
      apply List.ext_getElem hlen
      intro i h1 h2
      have hi := h i (List.mem_range.mpr h1)
      rw [decide_eq_true_eq] at hi
      rwa [List.getD_eq_getElem _ _ h1, List.getD_eq_getElem _ _ h2] at hi
    · rw [if_pos (by omega)] at h
      exact absurd h (by simp)
  · intro h
    subst h
    rw [if_neg (by omega), List.all_eq_true]
    intro i _
    simp

/-- Error outcomes of main.go `randomDistinctIndices` (lines 224-243). -/
inductive RandErr where
  | kGreaterThanN
  | entropyExhausted
deriving DecidableEq

/-- Embedding of the sampling loop of main.go `randomDistinctIndices`
(lines 230-237): draw from the stream until `k` distinct values are
collected.  Each draw is reduced mod `n`, matching cryptoRand.Int which
returns a uniform value in [0, n); a finite stream models the generator
failing, which the Go code propagates as an error. -/
def rdiLoop (n k : Nat) : List Nat → List Nat → Except RandErr (List Nat)
  | [], acc => if k ≤ acc.length then .ok acc else .error .entropyExhausted
  | r :: rest, acc =>
    if k ≤ acc.length then .ok acc
    else rdiLoop n k rest (if r % n ∈ acc then acc else acc ++ [r % n])

/-- Embedding of main.go `randomDistinctIndices` (lines 224-243). -/
def randomDistinctIndices (n k : Nat) (stream : List Nat) : Except RandErr (List Nat) :=
  if k > n then .error .kGreaterThanN else rdiLoop n k stream []

theorem rdiLoop_ok {n k : Nat} :
    ∀ (stream acc out : List Nat), acc.Nodup → (∀ a ∈ acc, a < n) → acc.length ≤ k →
    k ≤ n → rdiLoop n k stream acc = .ok out →
    out.Nodup ∧ (∀ a ∈ out, a < n) ∧ out.length = k := by
  intro stream
  induction stream with
  | nil =>
    intro acc out hnd hin hle hkn h
    unfold rdiLoop at h
    by_cases hk : k ≤ acc.length
    · rw [if_pos hk] at h
      cases h
      exact ⟨hnd, hin, by omega⟩
    · rw [if_neg hk] at h
      cases h
  | cons r rest ih =>
    intro acc out hnd hin hle hkn h
    unfold rdiLoop at h
    by_cases hk : k ≤ acc.length
    · rw [if_pos hk] at h
      cases h
      exact ⟨hnd, hin, by omega⟩
    · rw [if_neg hk] at h
      have hnpos : 0 < n := by omega
      by_cases hmem : r % n ∈ acc
      · rw [if_pos hmem] at h
        exact ih acc out hnd hin hle hkn h
      · rw [if_neg hmem] at h
        refine ih _ out ?_ ?_ ?_ hkn h
        · rw [List.nodup_append]
          exact ⟨hnd, List.nodup_singleton _, by simpa using hmem⟩
        · intro a ha
          rcases List.mem_append.mp ha with ha | ha
          · exact hin a ha
          · have : a = r % n := by simpa using ha
            subst this
            exact Nat.mod_lt _ hnpos
        · have : (acc ++ [r % n]).length = acc.length + 1 := by simp
          omega

theorem randomDistinctIndices_ok {n k : Nat} {stream out : List Nat}
    (h : randomDistinctIndices n k stream = .ok out) :
    out.Nodup ∧ (∀ a ∈ out, a < n) ∧ out.length = k := by
  unfold randomDistinctIndices at h
  by_cases hkn : k > n
  · rw [if_pos hkn] at h
    cases h
  · rw [if_neg hkn] at h
    exact rdiLoop_ok stream [] out (List.nodup_nil) (by simp) (by simp) (by omega) h

/-- Embedding of main.go `selfTestCombine` (lines 204-222): combine a random
threshold-sized subset of the shares and compare byte-for-byte with the
original secret; the subset-index randomness comes from `stream`. -/
def selfTestCombine (all : List (List GF)) (threshold : Nat) (original : List GF)
    (stream : List Nat) : Bool :=
  match randomDistinctIndices all.length threshold stream with
  | .error _ => false
  | .ok idxs =>
    match combineShares (idxs.map (fun i => all.getD i [])) with
    | .error _ => false
    | .ok recovered => bytesEqual recovered original

/-- Error outcomes of main.go `cmdSplit`, per the spec taxonomy: both the
`-n`/`-t` bounds failure (line 106) and the empty-secret failure (line 126)
are InvalidParameters conditions. -/
inductive CliError where
  | invalidParameters
  | splitFailed
  | selfTestFailed
deriving DecidableEq

/-- Embedding of main.go `cmdSplit` (lines 93-201), with the secret already
loaded (flag handling and file I/O are outside the model) and all randomness
explicit.  In order: the `-n`/`-t` validation of line 106, the empty-secret
check of line 126, the engine split, and the self-test of line 140; the
returned share list stands for the success output (the printed/written
shares and the Split OK report). -/
def cmdSplitModel (n t : Int) (secret : List GF) (coeffs : List (List GF)) (xs : List GF)
    (stream : List Nat) : Except CliError (List (List GF)) :=
  if n < t ∨ n < 2 ∨ t < 2 ∨ n > 255 ∨ t > 255 then .error .invalidParameters
  else if secret.length = 0 then .error .invalidParameters
  else
    match splitModel secret n.toNat t.toNat coeffs xs with
    | .error _ => .error .splitFailed
    | .ok shares =>
      if selfTestCombine shares t.toNat secret stream then .ok shares
      else .error .selfTestFailed

/-- Outcome classes of main.go `cmdCombine`. -/
inductive CombineCliError where
  | readOrDecodeFailed
  | tooFewShares
  | combineFailed
deriving DecidableEq

/-- The decode loop of main.go `cmdCombine` in -files mode (lines 262-296):
process each file's decode outcome in order (`none` stands for a read,
empty-file or Base64 failure), accumulating the decoded share buffers;
returns whether the loop completed, with the decoded buffers live at that
point. -/
def combineFilesLoop (parts : List (List GF)) : List (Option (List GF)) →
    Bool × List (List GF)
  | [] => (true, parts)
  | none :: _ => (false, parts)
  | some raw :: rest => combineFilesLoop (parts ++ [raw]) rest

/-- Embedding of main.go `cmdCombine` (lines 247-327, -files mode), tracking
buffer hygiene: the command result together with the final contents of every
sensitive buffer (decoded share slices, recovered secret) that was allocated,
as they stand when the function returns, after any deferred wipes have run.
On the decode-failure paths inside the loop, the parts decoded so far are
returned exactly as they stand, because the `defer zero2D(parts)` of line 302
is only registered after the loop; the too-few-shares path wipes explicitly
(line 299); all later paths are covered by the deferred wipes of lines 302
and 308. -/
def cmdCombineModel (files : List (Option (List GF))) :
    Except CombineCliError (List GF) × List (List GF) :=
  match combineFilesLoop [] files with
  | (false, parts) => (.error .readOrDecodeFailed, parts)
  | (true, parts) =>
    if parts.length < 2 then (.error .tooFewShares, zero2D parts)
    else
      match combineShares parts with
      | .error _ => (.error .combineFailed, zero2D parts)
      | .ok secret => (.ok secret, zero2D parts ++ [zero secret])

/-- Every byte of every live buffer has been wiped to zero. -/
@[reducible] def AllZeroed (bufs : List (List GF)) : Prop := ∀ b ∈ bufs, ∀ x ∈ b, x = 0

/-- Per byte position: with only `k ≤ t - 1` observed points, every candidate
secret byte admits a consistent coefficient row. -/
theorem secrecy_byte_ex (t k : Nat) (ht : 1 ≤ t) (hk : k ≤ t - 1) (x : Fin k → GF)
    (hxinj : Function.Injective x) (hx0 : ∀ j, x j ≠ 0)
    (y : Fin k → GF) (s : GF) :
    ∃ cs : List GF, cs.length = t - 1 ∧ ∀ j, polyEval (s :: cs) (x j) = y j := by
  classical
  set v : Option (Fin k) → GF := fun o => o.elim 0 x with hv
  set r : Option (Fin k) → GF := fun o => o.elim s y with hr
  have hvinj : Function.Injective v := by
    intro a b hab
    match a, b with
    | none, none => rfl
    | none, some j => exact absurd hab.symm (hx0 j)
    | some j, none => exact absurd hab (hx0 j)
    | some j1, some j2 => exact congrArg some (hxinj hab)
  have hvs : Set.InjOn v ↑(Finset.univ : Finset (Option (Fin k))) :=
    fun a _ b _ h => hvinj h
  have hcard : (Finset.univ : Finset (Option (Fin k))).card = k + 1 := by
    rw [Finset.card_univ, Fintype.card_option, Fintype.card_fin]
  set q := Lagrange.interpolate Finset.univ v r with hq
  have hqdeg : q.degree < ((k + 1 : Nat) : WithBot Nat) := by
    have hd := Lagrange.degree_interpolate_lt r hvs
    rwa [hcard] at hd
  have hqeval : ∀ o, q.eval (v o) = r o := fun o =>
    Lagrange.eval_interpolate_at_node r hvs (Finset.mem_univ o)
  have hq0 : q.eval 0 = s := by
    have h := hqeval none
    simpa [hv, hr] using h
  have hqx : ∀ j, q.eval (x j) = y j := by
    intro j
    have h := hqeval (some j)
    simpa [hv, hr] using h
  refine ⟨(List.range (t - 1)).map (fun i => q.coeff (i + 1)), by simp, ?_⟩
  intro j
  have hlist : listToPoly (s :: (List.range (t - 1)).map (fun i => q.coeff (i + 1))) = q := by
    apply Polynomial.ext
    intro n
    cases n with
    | zero =>
      rw [listToPoly_coeff, Polynomial.coeff_zero_eq_eval_zero, hq0]
      rfl
    | succ n =>
      rw [listToPoly_coeff_succ]
      by_cases hn : n < t - 1
      · rw [List.getD_eq_getElem _ _ (by simpa using hn)]
        simp
      · rw [List.getD_eq_default _ _ (by simpa using hn)]
        symm
        apply Polynomial.coeff_eq_zero_of_degree_lt
        refine lt_of_lt_of_le hqdeg ?_
        have hle : k + 1 ≤ n + 1 := by omega
        exact_mod_cast Nat.cast_le.mpr hle
  rw [polyEval_eq, hlist, hqx j]

/-- Matrix lift of `secrecy_byte_ex`: any data-byte matrix observed on any
subset of fewer than `t` coordinates is consistent with every candidate
secret. -/
theorem consistent_exists (secret : List GF) (t k : Nat) (ht : 2 ≤ t) (hk : k < t)
    (xs : List GF) (hxnd : xs.Nodup) (hx0 : ∀ x ∈ xs, x ≠ 0)
    (σ : Fin k → Fin xs.length) (hσ : Function.Injective σ)
    (obs : Fin k → Fin secret.length → GF) :
    ∃ coeffs : List (List GF),
      coeffs.length = secret.length ∧ (∀ c ∈ coeffs, c.length = t - 1) ∧
      ∀ (j : Fin k) (i : Fin secret.length),
        (((splitWith secret coeffs xs).getD (σ j).val []).getD i.val 0) = obs j i := by
  classical
  have htm : 1 ≤ t := by omega
  have hx'inj : Function.Injective (fun j => xs.get (σ j)) := by
    intro a b h
    exact hσ (List.nodup_iff_injective_get.mp hxnd h)
  have hx'0 : ∀ j, xs.get (σ j) ≠ 0 := fun j => hx0 _ (List.mem_iff_get.mpr ⟨σ j, rfl⟩)
  have hrow := fun (i : Fin secret.length) =>
    secrecy_byte_ex t k htm (by omega) (fun j => xs.get (σ j)) hx'inj hx'0
      (fun j => obs j i) (secret.get i)
  have haccess : ∀ (coeffs : List (List GF)) (hclen : coeffs.length = secret.length),
      ∀ (j : Fin k) (i : Fin secret.length),
      (((splitWith secret coeffs xs).getD (σ j).val []).getD i.val 0) =
        polyEval (secret.get i :: coeffs.get ⟨i.val, by omega⟩) (xs.get (σ j)) := by
    intro coeffs hclen j i
    have hb : (σ j).val < (splitWith secret coeffs xs).length := by
      rw [splitWith_length]
      exact (σ j).2
    have hzl : i.val < (secret.zip coeffs).length := by
      rw [List.length_zip, hclen, Nat.min_self]
      exact i.2
    rw [List.getD_eq_getElem _ _ hb]
    have hg : (splitWith secret coeffs xs)[(σ j).val] =
        shareFor (secret.zip coeffs) (xs.get (σ j)) := by
      unfold splitWith
      rw [List.getElem_map, List.get_eq_getElem]
    rw [hg, shareFor_data _ _ hzl, List.get_zip]
  refine ⟨(List.finRange secret.length).map (fun i => (hrow i).choose), by simp, ?_, ?_⟩
  · intro c hc
    obtain ⟨i, hi⟩ := List.mem_iff_get.mp hc
    rw [List.get_map] at hi
    rw [← hi]
    exact (hrow _).choose_spec.1
  · intro j i
    have hclen : ((List.finRange secret.length).map (fun i => (hrow i).choose)).length =
        secret.length := by simp
    rw [haccess _ hclen j i]
    have hg : ((List.finRange secret.length).map (fun i => (hrow i).choose)).get
        ⟨i.val, by omega⟩ = (hrow i).choose := by
      rw [List.get_map, List.get_finRange]
    rw [hg]
    exact (hrow i).choose_spec.2 j

/-- C9: after `zero b` every byte is 0 and the length is unchanged (the
in-place wipe is modelled by the returned buffer contents); `zero2D`
establishes the same postcondition for every row. -/
theorem claim_C9 (b : List GF) (bb : List (List GF)) :
    (zero b).length = b.length ∧ (∀ x ∈ zero b, x = 0) ∧
    (zero2D bb).length = bb.length ∧
    (∀ i : Nat, ((zero2D bb).getD i []).length = (bb.getD i []).length) ∧
    (∀ r ∈ zero2D bb, ∀ x ∈ r, x = 0) := by
  refine ⟨by simp [zero], ?_, by simp [zero2D], ?_, ?_⟩
  · intro x hx
    obtain ⟨a, _, ha⟩ := List.mem_map.mp hx
    exact ha.symm
  · intro i
    by_cases hi : i < bb.length
    · rw [List.getD_eq_getElem _ _ (by simpa [zero2D] using hi), List.getD_eq_getElem _ _ hi]
      unfold zero2D
      rw [List.getElem_map]
      simp [zero]
    · rw [List.getD_eq_default _ _ (by simp [zero2D]; omega), List.getD_eq_default _ _ (by omega)]
  · intro r hr x hx
    obtain ⟨a, _, ha⟩ := List.mem_map.mp hr
    rw [← ha] at hx
    obtain ⟨c, _, hc⟩ := List.mem_map.mp hx
    exact hc.symm

/-- C10: `randomDistinctIndices n k` errors whenever `k > n`; whenever it
returns without error the result is exactly `k` pairwise-distinct integers,
each below `n`. -/
theorem claim_C10 (n k : Nat) (stream : List Nat) :
    (k > n → randomDistinctIndices n k stream = .error .kGreaterThanN) ∧
    (∀ out, randomDistinctIndices n k stream = .ok out →
      out.length = k ∧ out.Nodup ∧ ∀ a ∈ out, a < n) := by
  constructor
  · intro h
    unfold randomDistinctIndices
    rw [if_pos h]
  · intro out h
    obtain ⟨h1, h2, h3⟩ := randomDistinctIndices_ok h
    exact ⟨h3, h1, h2⟩

theorem claim_C10_witness :
    randomDistinctIndices 2 3 [] = .error .kGreaterThanN ∧
    (([0, 1] : List Nat).length = 2 ∧ ([0, 1] : List Nat).Nodup ∧
      ∀ a ∈ ([0, 1] : List Nat), a < 3) :=
  ⟨(claim_C10 2 3 []).1 (by norm_num), (claim_C10 3 2 [0, 1, 5]).2 [0, 1] (by decide)⟩

/-- C5: on every structurally valid share set (at least 2 shares, equal
lengths `L + 1` with `L ≥ 1`, distinct tags) Combine succeeds and returns a
byte sequence of length `L` — the function of the input `combineCore`, with
no reference to any originating split, so sets below the original threshold
or mixing splits are treated identically, and equal inputs give equal
results. -/
theorem claim_C5 (shares : List (List GF)) (L : Nat) (hL : 1 ≤ L) (h2 : 2 ≤ shares.length)
    (hlen : ∀ s ∈ shares, s.length = L + 1) (hnd : (shares.map tagOf).Nodup) :
    combineShares shares = .ok (combineCore shares) ∧ (combineCore shares).length = L := by
  have hheadmem : shares.headD [] ∈ shares := by
    cases shares with
    | nil => simp at h2
    | cons s rest => simp
  have hheadlen : (shares.headD []).length = L + 1 := hlen _ hheadmem
  have hcond : (∀ s ∈ shares, s.length = (shares.headD []).length) ∧
      2 ≤ (shares.headD []).length := by
    constructor
    · intro s hs
      rw [hlen s hs, hheadlen]
    · omega
  constructor
  · unfold combineShares
    rw [if_neg (by omega), if_pos hcond, if_pos hnd]
  · unfold combineCore
    rw [hheadlen]
    simp

theorem claim_C5_witness :
    combineShares [[gf 1, gf 9], [gf 2, gf 7]] =
      .ok (combineCore [[gf 1, gf 9], [gf 2, gf 7]]) ∧
    (combineCore [[gf 1, gf 9], [gf 2, gf 7]]).length = 1 :=
  claim_C5 [[gf 1, gf 9], [gf 2, gf 7]] 1 (by norm_num) (by norm_num)
    (by decide) (by decide)

/-- C4 (amended): Combine fails with InvalidParameters exactly when fewer
than 2 shares are supplied; otherwise with InconsistentShares exactly when
the shares do not all have equal length at least 2; otherwise with
DuplicateShare exactly when two tags coincide; and these three are its only
failure modes. -/
theorem claim_C4 (shares : List (List GF)) :
    (combineShares shares = .error .invalidParameters ↔ shares.length < 2) ∧
    (combineShares shares = .error .inconsistentShares ↔
      (2 ≤ shares.length ∧
        ¬((∀ s ∈ shares, s.length = (shares.headD []).length) ∧
          2 ≤ (shares.headD []).length))) ∧
    (combineShares shares = .error .duplicateShare ↔
      (2 ≤ shares.length ∧
        (∀ s ∈ shares, s.length = (shares.headD []).length) ∧
        2 ≤ (shares.headD []).length ∧ ¬(shares.map tagOf).Nodup)) ∧
    (∀ e, combineShares shares = .error e →
      e = ShamirError.invalidParameters ∨ e = ShamirError.inconsistentShares ∨
        e = ShamirError.duplicateShare) := by
  by_cases h1 : shares.length < 2
  · have hres : combineShares shares = .error .invalidParameters := by
      unfold combineShares
      rw [if_pos h1]
    refine ⟨?_, ?_, ?_, ?_⟩
    · rw [hres]
      simp [h1]
    · rw [hres]
      constructor
      · intro h
        exact absurd h (by decide)
      · rintro ⟨h, _⟩
        omega
    · rw [hres]
      constructor
      · intro h
        exact absurd h (by decide)
      · rintro ⟨h, _⟩
        omega
    · intro e he
      rw [hres] at he
      have : ShamirError.invalidParameters = e := by
        have hi := he
        injection hi
      exact Or.inl this.symm
  · by_cases h2 : (∀ s ∈ shares, s.length = (shares.headD []).length) ∧
        2 ≤ (shares.headD []).length
    · by_cases h3 : (shares.map tagOf).Nodup
      · have hres : combineShares shares = .ok (combineCore shares) := by
          unfold combineShares
          rw [if_neg h1, if_pos h2, if_pos h3]
        refine ⟨?_, ?_, ?_, ?_⟩
        · rw [hres]
          constructor
          · intro h
            exact absurd h (by simp)
          · intro h
            omega
        · rw [hres]
          constructor
          · intro h
            exact absurd h (by simp)
          · rintro ⟨_, hc⟩
            exact absurd h2 hc
        · rw [hres]
          constructor
          · intro h
            exact absurd h (by simp)
          · rintro ⟨_, _, _, hc⟩
            exact absurd h3 hc
        · intro e he
          rw [hres] at he
          exact absurd he (by simp)
      · have hres : combineShares shares = .error .duplicateShare := by
          unfold combineShares
          rw [if_neg h1, if_pos h2, if_neg h3]
        refine ⟨?_, ?_, ?_, ?_⟩
        · rw [hres]
          constructor
          · intro h
            exact absurd h (by decide)
          · intro h
            omega
        · rw [hres]
          constructor
          · intro h
            exact absurd h (by decide)
          · rintro ⟨_, hc⟩
            exact absurd h2 hc
        · rw [hres]
          constructor
          · intro _
            exact ⟨by omega, h2.1, h2.2, h3⟩
          · intro _
            rfl
        · intro e he
          rw [hres] at he
          have : ShamirError.duplicateShare = e := by
            injection he
          exact Or.inr (Or.inr this.symm)
    · have hres : combineShares shares = .error .inconsistentShares := by
        unfold combineShares
        rw [if_neg h1, if_neg h2]
      refine ⟨?_, ?_, ?_, ?_⟩
      · rw [hres]
        constructor
        · intro h
          exact absurd h (by decide)
        · intro h
          omega
      · rw [hres]
        constructor
        · intro _
          exact ⟨by omega, h2⟩
        · intro _
          rfl
      · rw [hres]
        constructor
        · intro h
          exact absurd h (by decide)
        · rintro ⟨_, ha, hb, _⟩
          exact absurd ⟨ha, hb⟩ h2
      · intro e he
        rw [hres] at he
        have : ShamirError.inconsistentShares = e := by
          injection he
        exact Or.inr (Or.inl this.symm)

/-- The claim as frozen is false on the model: two shares of equal length 1
fail with InconsistentShares even though all supplied shares have equal
length, because the spec additionally requires the common length `L + 1`
to have `L ≥ 1`. -/
theorem claim_C4_counterexample :
    combineShares [[gf 5], [gf 7]] = .error .inconsistentShares ∧
    (∀ s ∈ ([[gf 5], [gf 7]] : List (List GF)),
      s.length = (([[gf 5], [gf 7]] : List (List GF)).headD []).length) ∧
    2 ≤ ([[gf 5], [gf 7]] : List (List GF)).length := by
  refine ⟨by decide, by decide, by norm_num⟩

/-- C3: the split command fails with an InvalidParameters-class error exactly
when t < 2, n < 2, t > n, n > 255, or the secret is empty; on those inputs
the result is the same for every randomness, i.e. the failure happens before
any randomness is consumed. -/
theorem claim_C3 (n t : Int) (secret : List GF) (coeffs coeffs' : List (List GF))
    (xs xs' : List GF) (stream stream' : List Nat) :
    ((cmdSplitModel n t secret coeffs xs stream = .error .invalidParameters) ↔
      (t < 2 ∨ n < 2 ∨ t > n ∨ n > 255 ∨ secret = [])) ∧
    ((t < 2 ∨ n < 2 ∨ t > n ∨ n > 255 ∨ secret = []) →
      cmdSplitModel n t secret coeffs xs stream =
        cmdSplitModel n t secret coeffs' xs' stream') := by
  have hempty : secret = [] ↔ secret.length = 0 := by
    constructor
    · intro h
      rw [h]
      rfl
    · intro h
      exact List.length_eq_zero.mp h
  by_cases hc : n < t ∨ n < 2 ∨ t < 2 ∨ n > 255 ∨ t > 255
  · have hres : ∀ (c : List (List GF)) (x : List GF) (s : List Nat),
        cmdSplitModel n t secret c x s = .error .invalidParameters := by
      intro c x s
      unfold cmdSplitModel
      rw [if_pos hc]
    have hnum : t < 2 ∨ n < 2 ∨ t > n ∨ n > 255 := by omega
    refine ⟨?_, fun _ => by rw [hres, hres]⟩
    rw [hres]
    constructor
    · intro _
      rcases hnum with h | h | h | h
      · exact Or.inl h
      · exact Or.inr (Or.inl h)
      · exact Or.inr (Or.inr (Or.inl h))
      · exact Or.inr (Or.inr (Or.inr (Or.inl h)))
    · intro _
      rfl
  · by_cases hL : secret.length = 0
    · have hres : ∀ (c : List (List GF)) (x : List GF) (s : List Nat),
          cmdSplitModel n t secret c x s = .error .invalidParameters := by
        intro c x s
        unfold cmdSplitModel
        rw [if_neg hc, if_pos hL]
      refine ⟨?_, fun _ => by rw [hres, hres]⟩
      rw [hres]
      constructor
      · intro _
        exact Or.inr (Or.inr (Or.inr (Or.inr (hempty.mpr hL))))
      · intro _
        rfl
    · have hcond : 2 ≤ t.toNat ∧ t.toNat ≤ n.toNat ∧ n.toNat ≤ 255 ∧ 1 ≤ secret.length := by
        omega
      have hres : ∀ (c : List (List GF)) (x : List GF) (s : List Nat),
          cmdSplitModel n t secret c x s =
            (if selfTestCombine (splitWith secret c x) t.toNat secret s
             then .ok (splitWith secret c x) else .error .selfTestFailed) := by
        intro c x s
        unfold cmdSplitModel splitModel
        rw [if_neg hc, if_neg hL, if_pos hcond]
      have hclaim : ¬(t < 2 ∨ n < 2 ∨ t > n ∨ n > 255 ∨ secret = []) := by
        intro h
        rcases h with h | h | h | h | h
        · omega
        · omega
        · omega
        · omega
        · exact hL (hempty.mp h)
      refine ⟨?_, fun h => absurd h hclaim⟩
      rw [hres]
      constructor
      · intro h
        by_cases hst : selfTestCombine (splitWith secret coeffs xs) t.toNat secret stream
        · rw [if_pos hst] at h
          exact absurd h (by simp)
        · rw [if_neg hst] at h
          have : CliError.selfTestFailed = CliError.invalidParameters := by
            injection h
          exact absurd this (by decide)
      · intro h
        exact absurd h hclaim

theorem claim_C3_witness :
    (cmdSplitModel 3 1 [gf 104] [[]] [gf 1, gf 2, gf 3] [0] =
      Except.error CliError.invalidParameters) ∧
    cmdSplitModel 3 1 [gf 104] [[]] [gf 1, gf 2, gf 3] [0] =
      cmdSplitModel 3 1 [gf 104] [] [] [] :=
  ⟨(claim_C3 3 1 [gf 104] [[]] [] [gf 1, gf 2, gf 3] [] [0] []).1.mpr (by norm_num),
   (claim_C3 3 1 [gf 104] [[]] [] [gf 1, gf 2, gf 3] [] [0] []).2 (by norm_num)⟩

theorem selfTestCombine_rdi_err {all : List (List GF)} {threshold : Nat}
    {original : List GF} {stream : List Nat} {e : RandErr}
    (hri : randomDistinctIndices all.length threshold stream = .error e) :
    selfTestCombine all threshold original stream = false := by
  unfold selfTestCombine
  rw [hri]

theorem selfTestCombine_combine_err {all : List (List GF)} {threshold : Nat}
    {original : List GF} {stream : List Nat} {idxs : List Nat} {e : ShamirError}
    (hri : randomDistinctIndices all.length threshold stream = .ok idxs)
    (hcs : combineShares (idxs.map (fun i => all.getD i [])) = .error e) :
    selfTestCombine all threshold original stream = false := by
  unfold selfTestCombine
  rw [hri]
  show (match combineShares (idxs.map (fun i => all.getD i [])) with
    | Except.error _ => false
    | Except.ok recovered => bytesEqual recovered original) = false
  rw [hcs]

theorem selfTestCombine_combine_ok {all : List (List GF)} {threshold : Nat}
    {original : List GF} {stream : List Nat} {idxs : List Nat} {recovered : List GF}
    (hri : randomDistinctIndices all.length threshold stream = .ok idxs)
    (hcs : combineShares (idxs.map (fun i => all.getD i [])) = .ok recovered) :
    selfTestCombine all threshold original stream = bytesEqual recovered original := by
  unfold selfTestCombine
  rw [hri]
  show (match combineShares (idxs.map (fun i => all.getD i [])) with
    | Except.error _ => false
    | Except.ok r => bytesEqual r original) = bytesEqual recovered original
  rw [hcs]

/-- C6: after a successful engine split, the split command runs the
self-test (combine a random threshold-sized subset and compare
byte-for-byte with the original secret); it returns its success output only
when the self-test passes, returns an error whenever the recombined bytes
differ, and the self-test passes precisely when the recombined subset equals
the original secret. -/
theorem claim_C6 (n t : Int) (secret : List GF) (coeffs : List (List GF)) (xs : List GF)
    (stream : List Nat) :
    (∀ out, cmdSplitModel n t secret coeffs xs stream = .ok out →
      out = splitWith secret coeffs xs ∧
      selfTestCombine out t.toNat secret stream = true) ∧
    (selfTestCombine (splitWith secret coeffs xs) t.toNat secret stream = false →
      ∀ out, cmdSplitModel n t secret coeffs xs stream ≠ .ok out) ∧
    (selfTestCombine (splitWith secret coeffs xs) t.toNat secret stream = true ↔
      ∃ idxs recovered,
        randomDistinctIndices (splitWith secret coeffs xs).length t.toNat stream = .ok idxs ∧
        combineShares (idxs.map (fun i => (splitWith secret coeffs xs).getD i [])) =
          .ok recovered ∧ recovered = secret) := by
  have hpart1 : ∀ out, cmdSplitModel n t secret coeffs xs stream = .ok out →
      out = splitWith secret coeffs xs ∧
      selfTestCombine out t.toNat secret stream = true := by
    intro out h
    unfold cmdSplitModel at h
    by_cases hc : n < t ∨ n < 2 ∨ t < 2 ∨ n > 255 ∨ t > 255
    · rw [if_pos hc] at h
      exact absurd h (by simp)
    · rw [if_neg hc] at h
      by_cases hL : secret.length = 0
      · rw [if_pos hL] at h
        exact absurd h (by simp)
      · rw [if_neg hL] at h
        by_cases hcond : 2 ≤ t.toNat ∧ t.toNat ≤ n.toNat ∧ n.toNat ≤ 255 ∧ 1 ≤ secret.length
        · have hres : (match splitModel secret n.toNat t.toNat coeffs xs with
              | Except.error _ => Except.error CliError.splitFailed
              | Except.ok shares =>
                if selfTestCombine shares t.toNat secret stream then Except.ok shares
                else Except.error CliError.selfTestFailed) =
              (if selfTestCombine (splitWith secret coeffs xs) t.toNat secret stream
               then Except.ok (splitWith secret coeffs xs)
               else Except.error CliError.selfTestFailed) := by
            unfold splitModel
            rw [if_pos hcond]
          rw [hres] at h
          by_cases hst : selfTestCombine (splitWith secret coeffs xs) t.toNat secret stream
          · rw [if_pos hst] at h
            have hout : splitWith secret coeffs xs = out := by
              injection h
            exact ⟨hout.symm, by rw [← hout]; exact hst⟩
          · rw [if_neg hst] at h
            exact absurd h (by simp)
        · have hres : (match splitModel secret n.toNat t.toNat coeffs xs with
              | Except.error _ => Except.error CliError.splitFailed
              | Except.ok shares =>
                if selfTestCombine shares t.toNat secret stream then Except.ok shares
                else Except.error CliError.selfTestFailed) =
              Except.error CliError.splitFailed := by
            unfold splitModel
            rw [if_neg hcond]
          rw [hres] at h
          exact absurd h (by simp)
  refine ⟨hpart1, ?_, ?_⟩
  · intro hfalse out hok
    obtain ⟨ho, htrue⟩ := hpart1 out hok
    rw [ho] at htrue
    rw [htrue] at hfalse
    exact absurd hfalse (by decide)
  · cases hri : randomDistinctIndices (splitWith secret coeffs xs).length t.toNat stream with
    | error e =>
      rw [selfTestCombine_rdi_err hri]
      constructor
      · intro h
        simp at h
      · rintro ⟨idxs, recovered, hidxs, _⟩
        exact absurd hidxs (by simp)
    | ok idxs =>
      cases hcs : combineShares (idxs.map (fun i => (splitWith secret coeffs xs).getD i [])) with
      | error e =>
        rw [selfTestCombine_combine_err hri hcs]
        constructor
        · intro h
          simp at h
        · rintro ⟨idxs', recovered, hidxs', hcs', _⟩
          have hii : idxs = idxs' := by injection hidxs'
          rw [← hii, hcs] at hcs'
          exact absurd hcs' (by simp)
      | ok recovered =>
        rw [selfTestCombine_combine_ok hri hcs, bytesEqual_iff]
        constructor
        · intro h
          exact ⟨idxs, recovered, rfl, by rw [hcs], h⟩
        · rintro ⟨idxs', recovered', hidxs', hcs', hrec⟩
          have hii : idxs = idxs' := by injection hidxs'
          rw [← hii, hcs] at hcs'
          have hrr : recovered = recovered' := by injection hcs'
          rw [hrr, hrec]

/-- C1: any subset of at least `t` of the shares of a successful
`Split(S, n, t)` — any choice, any order — recombines to exactly `S`. -/
theorem claim_C1 (secret : List GF) (n t : Nat) (coeffs : List (List GF)) (xs : List GF)
    (shares sub : List (List GF))
    (hrand : ValidRandomness n t secret.length coeffs xs)
    (hok : splitModel secret n t coeffs xs = .ok shares)
    (hsub : SubChoice sub shares)
    (htk : t ≤ sub.length) :
    combineShares sub = .ok secret := by
  obtain ⟨hxlen, hxnd, hx0, hclen, hcrow⟩ := hrand
  unfold splitModel at hok
  by_cases hc : 2 ≤ t ∧ t ≤ n ∧ n ≤ 255 ∧ 1 ≤ secret.length
  · rw [if_pos hc] at hok
    have hsh : splitWith secret coeffs xs = shares := by injection hok
    rw [← hsh] at hsub
    apply combineShares_splitWith secret coeffs xs t sub ?_ hxnd hclen hcrow hc.1 hsub htk
    intro h
    have hl := hc.2.2.2
    rw [h] at hl
    simp at hl
  · rw [if_neg hc] at hok
    exact absurd hok (by simp)

set_option maxRecDepth 10000 in
theorem claim_C1_witness :
    combineShares
      [shareFor [(gf 104, [gf 7]), (gf 105, [gf 9])] (gf 3),
       shareFor [(gf 104, [gf 7]), (gf 105, [gf 9])] (gf 1)] = .ok [gf 104, gf 105] :=
  claim_C1 [gf 104, gf 105] 3 2 [[gf 7], [gf 9]] [gf 1, gf 2, gf 3]
    (splitWith [gf 104, gf 105] [[gf 7], [gf 9]] [gf 1, gf 2, gf 3])
    [shareFor [(gf 104, [gf 7]), (gf 105, [gf 9])] (gf 3),
     shareFor [(gf 104, [gf 7]), (gf 105, [gf 9])] (gf 1)]
    (by decide) rfl
    ⟨fun j => if j.val = 0 then ⟨2, by decide⟩ else ⟨0, by decide⟩, by decide, by decide⟩
    (by decide)

/-- C8: every share of a successful split of an `L`-byte secret is exactly
`L + 1` bytes — data bytes are the per-position polynomial evaluations at
that share's x-coordinate, and the final byte is the tag, in [1, 255] and
distinct across the batch; and for the 2-byte secret "hi" with n = 3, t = 2,
the split yields 3 shares of 3 bytes and any 2 of them recombine to "hi". -/
theorem claim_C8 :
    (∀ (secret : List GF) (n t : Nat) (coeffs : List (List GF)) (xs : List GF)
        (shares : List (List GF)),
      ValidRandomness n t secret.length coeffs xs →
      splitModel secret n t coeffs xs = .ok shares →
      shares.length = n ∧
      ∀ i : Fin shares.length,
        (shares.get i).length = secret.length + 1 ∧
        tagOf (shares.get i) = xs.getD i.val 0 ∧
        1 ≤ (tagOf (shares.get i)).val ∧ (tagOf (shares.get i)).val ≤ 255 ∧
        (∀ p : Fin secret.length,
          (shares.get i).getD p.val 0 =
            polyEval (secret.get p :: coeffs.getD p.val []) (tagOf (shares.get i))) ∧
        (∀ i' : Fin shares.length, i ≠ i' → tagOf (shares.get i) ≠ tagOf (shares.get i'))) ∧
    (∀ (coeffs : List (List GF)) (xs : List GF) (shares sub : List (List GF)),
      ValidRandomness 3 2 2 coeffs xs →
      splitModel [gf 104, gf 105] 3 2 coeffs xs = .ok shares →
      SubChoice sub shares → 2 ≤ sub.length →
      shares.length = 3 ∧ (∀ s ∈ shares, s.length = 3) ∧
      combineShares sub = .ok [gf 104, gf 105]) := by
  constructor
  · intro secret n t coeffs xs shares hrand hok
    obtain ⟨hxlen, hxnd, hx0, hclen, hcrow⟩ := hrand
    unfold splitModel at hok
    by_cases hc : 2 ≤ t ∧ t ≤ n ∧ n ≤ 255 ∧ 1 ≤ secret.length
    · rw [if_pos hc] at hok
      have hsh : splitWith secret coeffs xs = shares := by injection hok
      subst hsh
      have hrowlen : (secret.zip coeffs).length = secret.length := by
        rw [List.length_zip, hclen, Nat.min_self]
      constructor
      · rw [splitWith_length, hxlen]
      · intro i
        have hxi : i.val < xs.length := by
          have h2 := i.2
          have h3 := splitWith_length secret coeffs xs
          omega
        have hgi : (splitWith secret coeffs xs).get i =
            shareFor (secret.zip coeffs) (xs.get ⟨i.val, hxi⟩) := by
          unfold splitWith
          rw [List.get_map]
        have htagi : tagOf ((splitWith secret coeffs xs).get i) = xs.get ⟨i.val, hxi⟩ := by
          rw [hgi, shareFor_tag]
        refine ⟨?_, ?_, ?_, ?_, ?_, ?_⟩
        · rw [hgi, shareFor_length, hrowlen]
        · rw [htagi, List.getD_eq_getElem _ _ hxi]
          rfl
        · rw [htagi]
          have h0 := hx0 _ (List.mem_iff_get.mpr ⟨⟨i.val, hxi⟩, rfl⟩)
          have hval : (xs.get ⟨i.val, hxi⟩).val ≠ 0 := by
            intro hv
            apply h0
            apply GF.eq_of_val
            rw [hv]
            rfl
          omega
        · rw [htagi]
          have hb := (xs.get ⟨i.val, hxi⟩).2
          omega
        · intro p
          have hpz : p.val < (secret.zip coeffs).length := by
            rw [hrowlen]
            exact p.2
          have hpc : p.val < coeffs.length := by
            rw [hclen]
            exact p.2
          rw [htagi, hgi, shareFor_data _ _ hpz, List.get_zip]
          rw [List.getD_eq_getElem _ _ hpc]
          rfl
        · intro i' hne
          have hxi' : i'.val < xs.length := by
            have h2 := i'.2
            have h3 := splitWith_length secret coeffs xs
            omega
          have htagi' : tagOf ((splitWith secret coeffs xs).get i') = xs.get ⟨i'.val, hxi'⟩ := by
            have hgi' : (splitWith secret coeffs xs).get i' =
                shareFor (secret.zip coeffs) (xs.get ⟨i'.val, hxi'⟩) := by
              unfold splitWith
              rw [List.get_map]
            rw [hgi', shareFor_tag]
          rw [htagi, htagi']
          intro heq
          have hfin := List.nodup_iff_injective_get.mp hxnd heq
          have hv : i.val = i'.val := Fin.mk_eq_mk.mp hfin
          exact hne (Fin.ext hv)
    · rw [if_neg hc] at hok
      exact absurd hok (by simp)
  · intro coeffs xs shares sub hrand hok hsub hlen2
    obtain ⟨hxlen, hxnd, hx0, hclen, hcrow⟩ := hrand
    unfold splitModel at hok
    rw [if_pos (by constructor <;> norm_num)] at hok
    have hsh : splitWith [gf 104, gf 105] coeffs xs = shares := by injection hok
    subst hsh
    have hrowlen : (([gf 104, gf 105] : List GF).zip coeffs).length = 2 := by
      rw [List.length_zip, hclen]
      rfl
    refine ⟨?_, ?_, ?_⟩
    · rw [splitWith_length, hxlen]
    · intro s hs
      obtain ⟨j, hj⟩ := List.mem_iff_get.mp hs
      have hgj : (splitWith [gf 104, gf 105] coeffs xs).get j =
          shareFor (([gf 104, gf 105] : List GF).zip coeffs)
            (xs.get ⟨j.val, by
              have h2 := j.2
              have h3 := splitWith_length ([gf 104, gf 105] : List GF) coeffs xs
              omega⟩) := by
        unfold splitWith
        rw [List.get_map]
      rw [← hj, hgj, shareFor_length, hrowlen]
    · exact combineShares_splitWith [gf 104, gf 105] coeffs xs 2 sub (by simp) hxnd
        (by rw [hclen]; rfl) hcrow (by norm_num) hsub hlen2

set_option maxRecDepth 10000 in
theorem claim_C8_witness :
    (splitWith [gf 104, gf 105] [[gf 7], [gf 9]] [gf 1, gf 2, gf 3]).length = 3 ∧
    combineShares
      [shareFor [(gf 104, [gf 7]), (gf 105, [gf 9])] (gf 1),
       shareFor [(gf 104, [gf 7]), (gf 105, [gf 9])] (gf 2)] = .ok [gf 104, gf 105] := by
  constructor
  · exact (claim_C8.1 [gf 104, gf 105] 3 2 [[gf 7], [gf 9]] [gf 1, gf 2, gf 3] _
      (by decide) rfl).1
  · exact (claim_C8.2 [[gf 7], [gf 9]] [gf 1, gf 2, gf 3]
      (splitWith [gf 104, gf 105] [[gf 7], [gf 9]] [gf 1, gf 2, gf 3])
      [shareFor [(gf 104, [gf 7]), (gf 105, [gf 9])] (gf 1),
       shareFor [(gf 104, [gf 7]), (gf 105, [gf 9])] (gf 2)]
      (by decide) rfl
      ⟨fun j => if j.val = 0 then ⟨0, by decide⟩ else ⟨1, by decide⟩, by decide, by decide⟩
      (by decide)).2.2

/-- C2: for every valid split configuration, any subset of fewer than `t`
shares is, for each byte position, consistent with every possible secret
(there is a coefficient choice realizing any observation for any secret),
and for a `(t-1)`-subset there is exactly one such coefficient matrix per
candidate secret — so the number of splits producing the observed bytes is
the same for every secret, i.e. the observed joint distribution is
independent of the secret. -/
theorem claim_C2 (secret : List GF) (t : Nat) (ht : 2 ≤ t)
    (xs : List GF) (hxnd : xs.Nodup) (hx0 : ∀ x ∈ xs, x ≠ 0) :
    (∀ k, k < t → ∀ σ : Fin k → Fin xs.length, Function.Injective σ →
      ∀ obs : Fin k → Fin secret.length → GF,
      ∃ coeffs : List (List GF),
        coeffs.length = secret.length ∧ (∀ c ∈ coeffs, c.length = t - 1) ∧
        ∀ (j : Fin k) (i : Fin secret.length),
          (((splitWith secret coeffs xs).getD (σ j).val []).getD i.val 0) = obs j i) ∧
    (∀ σ : Fin (t - 1) → Fin xs.length, Function.Injective σ →
      ∀ obs : Fin (t - 1) → Fin secret.length → GF,
      ∃! coeffs : List (List GF),
        coeffs.length = secret.length ∧ (∀ c ∈ coeffs, c.length = t - 1) ∧
        ∀ (j : Fin (t - 1)) (i : Fin secret.length),
          (((splitWith secret coeffs xs).getD (σ j).val []).getD i.val 0) = obs j i) := by
  constructor
  · intro k hk σ hσ obs
    exact consistent_exists secret t k ht hk xs hxnd hx0 σ hσ obs
  · intro σ hσ obs
    exact secrecy_split secret t ht xs hxnd hx0 σ hσ obs

theorem claim_C2_witness :
    (∃ coeffs : List (List GF),
      coeffs.length = ([gf 104] : List GF).length ∧ (∀ c ∈ coeffs, c.length = 2 - 1) ∧
      ∀ (j : Fin 1) (i : Fin ([gf 104] : List GF).length),
        (((splitWith [gf 104] coeffs [gf 1, gf 2]).getD
          ((fun _ : Fin 1 => (⟨0, by norm_num⟩ : Fin ([gf 1, gf 2] : List GF).length)) j).val
            []).getD i.val 0) = gf 99) ∧
    (∃! coeffs : List (List GF),
      coeffs.length = ([gf 104] : List GF).length ∧ (∀ c ∈ coeffs, c.length = 2 - 1) ∧
      ∀ (j : Fin (2 - 1)) (i : Fin ([gf 104] : List GF).length),
        (((splitWith [gf 104] coeffs [gf 1, gf 2]).getD
          ((fun _ : Fin (2 - 1) =>
            (⟨0, by norm_num⟩ : Fin ([gf 1, gf 2] : List GF).length)) j).val
            []).getD i.val 0) = gf 99) := by
  constructor
  · exact (claim_C2 [gf 104] 2 (by norm_num) [gf 1, gf 2] (by decide) (by decide)).1
      1 (by norm_num) (fun _ => ⟨0, by norm_num⟩)
      (fun a b _ => Subsingleton.elim a b) (fun _ _ => gf 99)
  · exact (claim_C2 [gf 104] 2 (by norm_num) [gf 1, gf 2] (by decide) (by decide)).2
      (fun _ => ⟨0, by norm_num⟩)
      (fun a b _ => by
        apply Fin.ext
        have h1 := a.2
        have h2 := b.2
        omega) (fun _ _ => gf 99)

/-- C7: the claim fails on the code.  When a later file's Base64 decoding
fails, cmdCombine returns the error while the share buffers decoded from
earlier files are still un-erased — the deferred `zero2D(parts)` of main.go
line 302 is only registered after the decode loop.  Later failure paths do
wipe everything, as the second conjunct shows for the too-few-shares path. -/
theorem claim_C7 :
    ((cmdCombineModel [some [gf 10, gf 20, gf 5], none]).1 =
        .error .readOrDecodeFailed ∧
      (cmdCombineModel [some [gf 10, gf 20, gf 5], none]).2 = [[gf 10, gf 20, gf 5]] ∧
      ¬ AllZeroed (cmdCombineModel [some [gf 10, gf 20, gf 5], none]).2) ∧
    ((cmdCombineModel [some [gf 1, gf 9]]).1 = .error .tooFewShares ∧
      AllZeroed (cmdCombineModel [some [gf 1, gf 9]]).2) := by
  refine ⟨⟨by decide, by decide, by decide⟩, by decide, by decide⟩

set_option maxRecDepth 10000 in
theorem claim_C6_witness :
    (splitWith [gf 104, gf 105] [[gf 7], [gf 9]] [gf 1, gf 2, gf 3] =
        splitWith [gf 104, gf 105] [[gf 7], [gf 9]] [gf 1, gf 2, gf 3] ∧
      selfTestCombine (splitWith [gf 104, gf 105] [[gf 7], [gf 9]] [gf 1, gf 2, gf 3])
        (2 : Int).toNat [gf 104, gf 105] [0, 1] = true) ∧
    cmdSplitModel 3 2 [gf 104, gf 105] [[gf 7], [gf 9]] [gf 1, gf 2, gf 3] [] ≠
      .ok (splitWith [gf 104, gf 105] [[gf 7], [gf 9]] [gf 1, gf 2, gf 3]) :=
  ⟨(claim_C6 3 2 [gf 104, gf 105] [[gf 7], [gf 9]] [gf 1, gf 2, gf 3] [0, 1]).1
      (splitWith [gf 104, gf 105] [[gf 7], [gf 9]] [gf 1, gf 2, gf 3]) (by decide),
   (claim_C6 3 2 [gf 104, gf 105] [[gf 7], [gf 9]] [gf 1, gf 2, gf 3] []).2.1 (by decide)
      (splitWith [gf 104, gf 105] [[gf 7], [gf 9]] [gf 1, gf 2, gf 3])⟩

theorem claim_C4_witness :
    combineShares ([] : List (List GF)) = .error .invalidParameters ∧
    combineShares [[gf 1, gf 9], [gf 2]] = .error .inconsistentShares ∧
    combineShares [[gf 1, gf 9], [gf 2, gf 9]] = .error .duplicateShare :=
  ⟨(claim_C4 ([] : List (List GF))).1.mpr (by norm_num),
   (claim_C4 [[gf 1, gf 9], [gf 2]]).2.1.mpr ⟨by norm_num, by decide⟩,
   (claim_C4 [[gf 1, gf 9], [gf 2, gf 9]]).2.2.1.mpr
     ⟨by norm_num, by decide, by decide, by decide⟩⟩

theorem claim_C9_witness :
    (zero [gf 1, gf 2]).length = ([gf 1, gf 2] : List GF).length ∧
    ∀ x ∈ zero [gf 1, gf 2], x = 0 :=
  ⟨(claim_C9 [gf 1, gf 2] []).1, (claim_C9 [gf 1, gf 2] []).2.1⟩
